import Mathlib

/-!
INET / CIDR values: comparison, inclusion and input.

A shallow embedding of `network.c` and `pgsql_inet.h`.

* Bytes (`unsigned char`) are natural numbers below 256; a buffer is a `List Nat`.
* A read outside a buffer, a negative shift count or a negative index is undefined
  behaviour in C; the functions that read memory therefore return an `Option`, and
  `none` stands for such an execution.
* A C `int` that is only used as a truth value is a `Bool`.
-/

namespace PgsqlInet

/-! ## Constants of `pgsql_inet.h` -/

/-- Modelled from the spec: `AF_INET` comes from the system header `<sys/socket.h>`,
which is not among the sources; the spec only fixes that IPv4 orders before IPv6.
The value is 2 on Linux, the BSDs and Windows. -/
def AF_INET : Nat := 2

/-- The macro `PGSQL_AF_INET	(AF_INET + 0)`. -/
def PGSQL_AF_INET : Nat := AF_INET + 0

/-- The macro `PGSQL_AF_INET6	(AF_INET + 1)`. -/
def PGSQL_AF_INET6 : Nat := AF_INET + 1

def PGSQL_OK : Int := 0

def PGSQL_ERROR_MEMORY : Int := -1

def PGSQL_ERROR_ADDRESS_FORMAT : Int := -2

def PGSQL_ERROR_ADDRESS_CIDR_FORMAT : Int := -3

/-- The struct `inet`: `unsigned char family`, `unsigned char bits`,
`unsigned char ipaddr[16]`. -/
structure inet where
  family : Nat
  bits : Nat
  ipaddr : List Nat
deriving DecidableEq

/-- A value of the C type `inet`: both scalar fields are bytes and `ipaddr` is an
array of sixteen bytes. -/
def inet.wf (a : inet) : Prop :=
  a.family < 256 ∧ a.bits < 256 ∧ a.ipaddr.length = 16 ∧ ∀ x ∈ a.ipaddr, x < 256

instance (a : inet) : Decidable a.wf := by
  unfold inet.wf; infer_instance

/-! ## Macros of `network.c` -/

/-- The macro `Min(x, y)  ((x) < (y) ? (x) : (y))`. -/
def Min (x y : Nat) : Nat := if x < y then x else y

def HIGHBIT : Nat := 0x80

/-- The macro `IS_HIGHBIT_SET(ch)  ((unsigned char)(ch) & HIGHBIT)`. -/
def IS_HIGHBIT_SET (ch : Nat) : Nat := (ch % 256) &&& HIGHBIT

/-- The macro `ip_maxbits(inetptr)`. -/
def ip_maxbits (a : inet) : Nat := if a.family = PGSQL_AF_INET then 32 else 128

/-! ## `bitncmp` -/

/-- Modelled from the spec: `memcmp` belongs to the C library, not to the sources.
The spec describes it as a byte-wise numeric comparison of which only the sign is
used, with results in {-1, 0, 1}. Comparing `n` bytes of a buffer that holds fewer
is undefined (`none`). -/
def memcmp : List Nat → List Nat → Nat → Option Int
  | _, _, 0 => some 0
  | x :: l, y :: r, n + 1 =>
    match memcmp l r n with
    | none => none
    | some v => some (if x < y then -1 else if y < x then 1 else v)
  | _, _, _ + 1 => none

/-- The `for (b = n % 8; b > 0; b--)` loop of `bitncmp` on the two `u_int` locals
`lb`, `rb` (32 bits wide). -/
def bitncmp_loop : Nat → Nat → Nat → Int
  | 0, _, _ => 0
  | b + 1, lb, rb =>
    if IS_HIGHBIT_SET lb ≠ IS_HIGHBIT_SET rb then
      (if IS_HIGHBIT_SET lb ≠ 0 then 1 else -1)
    else bitncmp_loop b ((lb <<< 1) % 2 ^ 32) ((rb <<< 1) % 2 ^ 32)

/-- The function `bitncmp(l, r, n)`. Every call site passes an `unsigned char` or the
constant 32 or 128 for `n`, so `n` is a natural number. -/
def bitncmp (l r : List Nat) (n : Nat) : Option Int :=
  let b := n / 8
  match memcmp l r b with
  | none => none
  | some x =>
    if x ≠ 0 ∨ n % 8 = 0 then some x
    else
      match l.get? b, r.get? b with
      | some lb, some rb => some (bitncmp_loop (n % 8) lb rb)
      | _, _ => none

/-! ## `addressOK` and `ip_addrsize` -/

/-- The `while (byte < maxbytes)` loop of `addressOK`; the first argument is the
number of iterations left, `maxbytes - byte`. -/
def addressOK_loop (a : List Nat) : Nat → Nat → Nat → Option Bool
  | 0, _, _ => some true
  | k + 1, byte, mask =>
    match a.get? byte with
    | none => none
    | some v =>
      if v &&& mask ≠ 0 then some false
      else addressOK_loop a k (byte + 1) 0xff

/-- The function `addressOK(a, bits, family)`; C's `/` and `%` truncate towards zero. -/
def addressOK (a : List Nat) (bits : Int) (family : Nat) : Option Bool :=
  let maxbits : Int := if family = PGSQL_AF_INET then 32 else 128
  let maxbytes : Int := if family = PGSQL_AF_INET then 4 else 16
  if bits ≥ maxbits then some true
  else
    let byte := Int.tdiv bits 8
    let nbits := Int.tmod bits 8
    if nbits < 0 ∨ byte < 0 then none
    else
      let mask : Nat := if bits ≠ 0 then 0xff >>> nbits.toNat else 0xff
      addressOK_loop a (maxbytes - byte).toNat byte.toNat mask

/-- The function `ip_addrsize(inetptr)`. -/
def ip_addrsize (a : inet) : Int :=
  if a.family = PGSQL_AF_INET then 4
  else if a.family = PGSQL_AF_INET6 then 16
  else 0

/-! ## `pgsql_network_in` -/

/-- What `pgsql_network_in` leaves behind: the returned status and `*dstp`
(`none` is `NULL`). -/
structure in_result where
  status : Int
  dstp : Option inet
deriving DecidableEq

/-- The function `pgsql_network_in(dstp, src, is_cidr)`.

`calloc_ok` tells whether `calloc` returned a block. The library call
`inet_net_pton(af, src, dst, size)` is a parameter: given the family, the text, the
current content of the address buffer and the size argument, it yields its return
value and the content of the buffer afterwards. -/
def pgsql_network_in (calloc_ok : Bool)
    (inet_net_pton : Nat → List Char → List Nat → Int → Int × List Nat)
    (src : List Char) (is_cidr : Bool) : Option in_result :=
  if calloc_ok = false then some { status := PGSQL_ERROR_MEMORY, dstp := none }
  else
    let family : Nat := if ':' ∈ src then PGSQL_AF_INET6 else PGSQL_AF_INET
    let dst : inet := { family := family, bits := 0, ipaddr := List.replicate 16 0 }
    let r := inet_net_pton dst.family src dst.ipaddr (if is_cidr then ip_addrsize dst else -1)
    let bits : Int := r.1
    let dst : inet := { family := family, bits := 0, ipaddr := r.2 }
    if bits < 0 ∨ bits > (ip_maxbits dst : Int) then
      some { status := PGSQL_ERROR_ADDRESS_FORMAT, dstp := none }
    else
      match (if is_cidr then addressOK dst.ipaddr bits dst.family else some true) with
      | none => none
      | some ok =>
        if ok = false then some { status := PGSQL_ERROR_ADDRESS_CIDR_FORMAT, dstp := none }
        else
          some { status := PGSQL_OK,
                 dstp := some { family := family, bits := (bits % 256).toNat, ipaddr := r.2 } }

/-! ## `pgsql_network_out` -/

/-- The size of the local array `tmp`:
`sizeof("xxxx:xxxx:xxxx:xxxx:xxxx:xxxx:255.255.255.255/128")`, 49 characters and the
terminating NUL. -/
def sizeof_tmp : Nat := 50

/-- The call `snprintf(tmp + len, sizeof(tmp) - len, "/%u", bits)` on a `tmp` that
holds the text `s`: the text afterwards. At most `sizeof(tmp) - len - 1` characters
of the slash and the decimal digits are stored. -/
def snprintf_mask (s : List Char) (bits : Nat) : List Char :=
  s ++ ('/' :: Nat.toDigits 10 bits).take (sizeof_tmp - s.length - 1)

/-- What `pgsql_network_out` leaves behind: the returned status, `*dstp`
(`none` is `NULL`), and the last value of its local pointer `dst`, which no caller
can see. -/
structure out_result where
  status : Int
  dstp : Option (List Char)
  dst : Option (List Char)
deriving DecidableEq

/-- The function `pgsql_network_out(dstp, src, is_cidr)`.

The library call `inet_net_ntop(af, src, bits, dst, size)` is a parameter: given the
family, the address bytes, the mask length and the buffer size it yields the text it
wrote to `tmp`, or `none` for `NULL`. `strdup_ok` tells whether `strdup` returned a
copy. The only assignment to `*dstp` in the source is `*dstp = NULL`. -/
def pgsql_network_out (inet_net_ntop : Nat → List Nat → Nat → Nat → Option (List Char))
    (strdup_ok : Bool) (src : inet) (is_cidr : Bool) : out_result :=
  match inet_net_ntop src.family src.ipaddr src.bits sizeof_tmp with
  | none => { status := PGSQL_ERROR_ADDRESS_FORMAT, dstp := none, dst := none }
  | some s =>
    let tmp : List Char := if is_cidr = true ∧ '/' ∉ s then snprintf_mask s src.bits else s
    let dst : Option (List Char) := if strdup_ok then some tmp else none
    { status := PGSQL_OK, dstp := none, dst := dst }

/-! ## Comparison -/

/-- The function `pgsql_network_cmp(a1, a2)`. -/
def pgsql_network_cmp (a1 a2 : inet) : Option Int :=
  if a1.family = a2.family then
    match bitncmp a1.ipaddr a2.ipaddr (Min a1.bits a2.bits) with
    | none => none
    | some order =>
      if order ≠ 0 then some order
      else
        let order : Int := (a1.bits : Int) - (a2.bits : Int)
        if order ≠ 0 then some order
        else bitncmp a1.ipaddr a2.ipaddr (ip_maxbits a1)
  else some ((a1.family : Int) - (a2.family : Int))

def pgsql_network_lt (a1 a2 : inet) : Option Bool :=
  (pgsql_network_cmp a1 a2).map fun c => decide (c < 0)

def pgsql_network_le (a1 a2 : inet) : Option Bool :=
  (pgsql_network_cmp a1 a2).map fun c => decide (c ≤ 0)

def pgsql_network_eq (a1 a2 : inet) : Option Bool :=
  (pgsql_network_cmp a1 a2).map fun c => decide (c = 0)

def pgsql_network_ge (a1 a2 : inet) : Option Bool :=
  (pgsql_network_cmp a1 a2).map fun c => decide (c ≥ 0)

def pgsql_network_gt (a1 a2 : inet) : Option Bool :=
  (pgsql_network_cmp a1 a2).map fun c => decide (c > 0)

def pgsql_network_ne (a1 a2 : inet) : Option Bool :=
  (pgsql_network_cmp a1 a2).map fun c => decide (c ≠ 0)

/-! ## Inclusion; `&&` evaluates its right operand only when the left one holds -/

/-- The function `pgsql_network_sub(a1, a2)`. -/
def pgsql_network_sub (a1 a2 : inet) : Option Bool :=
  if a1.family = a2.family then
    if a1.bits > a2.bits then
      (bitncmp a1.ipaddr a2.ipaddr a2.bits).map fun x => decide (x = 0)
    else some false
  else some false

/-- The function `pgsql_network_subeq(a1, a2)`. -/
def pgsql_network_subeq (a1 a2 : inet) : Option Bool :=
  if a1.family = a2.family then
    if a1.bits ≥ a2.bits then
      (bitncmp a1.ipaddr a2.ipaddr a2.bits).map fun x => decide (x = 0)
    else some false
  else some false

/-- The function `pgsql_network_sup(a1, a2)`; the bit comparison is made over
`ip_bits(a2)` bits, as in the source. -/
def pgsql_network_sup (a1 a2 : inet) : Option Bool :=
  if a1.family = a2.family then
    if a1.bits < a2.bits then
      (bitncmp a1.ipaddr a2.ipaddr a2.bits).map fun x => decide (x = 0)
    else some false
  else some false

/-- The function `pgsql_network_supeq(a1, a2)`; the bit comparison is made over
`ip_bits(a2)` bits, as in the source. -/
def pgsql_network_supeq (a1 a2 : inet) : Option Bool :=
  if a1.family = a2.family then
    if a1.bits ≤ a2.bits then
      (bitncmp a1.ipaddr a2.ipaddr a2.bits).map fun x => decide (x = 0)
    else some false
  else some false

/-! ## Vocabulary of the specification -/

/-- Bit `i` of a buffer in network order: bit 0 is the most significant bit of byte 0. -/
def bitAt (l : List Nat) (i : Nat) : Bool := (l.getD (i / 8) 0).testBit (7 - i % 8)

/-- The first `n` bits of two buffers coincide. -/
def sameBits (l r : List Nat) (n : Nat) : Prop := ∀ i, i < n → bitAt l i = bitAt r i

instance (l r : List Nat) (n : Nat) : Decidable (sameBits l r n) := by
  unfold sameBits; infer_instance

/-- Sixteen-byte buffer whose first bytes are `l`, the rest zero. -/
def pad16 (l : List Nat) : List Nat := l ++ List.replicate (16 - l.length) 0

/-- An IPv4 value with the given mask length and four address bytes. -/
def ipv4 (bits : Nat) (l : List Nat) : inet :=
  { family := PGSQL_AF_INET, bits := bits, ipaddr := pad16 l }

/-- An IPv6 value with the given mask length and leading address bytes. -/
def ipv6 (bits : Nat) (l : List Nat) : inet :=
  { family := PGSQL_AF_INET6, bits := bits, ipaddr := pad16 l }

/-- The family `pgsql_network_in` chooses for a text: IPv6 iff it holds a colon. -/
def srcFamily (src : List Char) : Nat :=
  if ':' ∈ src then PGSQL_AF_INET6 else PGSQL_AF_INET

/-- The width in bits of the family chosen for a text. -/
def srcMaxbits (src : List Char) : Nat := if ':' ∈ src then 128 else 32

/-- The decoder call made by `pgsql_network_in`: on the chosen family, the text, a
zeroed sixteen-byte buffer and the size argument (the address size for a network
block, -1 otherwise). Its value is the decoder's return value and the buffer
content afterwards. -/
def decoderCall (inet_net_pton : Nat → List Char → List Nat → Int → Int × List Nat)
    (src : List Char) (is_cidr : Bool) : Int × List Nat :=
  inet_net_pton (srcFamily src) src (List.replicate 16 0)
    (if is_cidr then (if ':' ∈ src then 16 else 4) else -1)

/-- All address bits from position `n` up to the width `w` are zero. -/
def hostBitsZero (l : List Nat) (n w : Nat) : Prop :=
  ∀ i, n ≤ i → i < w → bitAt l i = false

instance (l : List Nat) (n w : Nat) : Decidable (hostBitsZero l n w) :=
  decidable_of_iff (∀ i, i < w → n ≤ i → bitAt l i = false)
    ⟨fun h i h1 h2 => h i h2 h1, fun h i h1 h2 => h i h2 h1⟩

/-- A decoder that ignores its input: it returns `bits` and writes `octets` at the
start of the buffer. -/
def constDecoder (bits : Int) (octets : List Nat) :
    Nat → List Char → List Nat → Int → Int × List Nat :=
  fun _ _ buf _ => (bits, octets ++ buf.drop octets.length)

/-- An encoder that ignores its input and writes the text `s`. -/
def constEncoder (s : List Char) : Nat → List Nat → Nat → Nat → Option (List Char) :=
  fun _ _ _ _ => some s

/-- The value with the address buffer cut down to its first `k` bytes. -/
def truncAddr (a : inet) (k : Nat) : inet :=
  { family := a.family, bits := a.bits, ipaddr := a.ipaddr.take k }

/-- The unsigned integer whose binary digits, most significant first, are the first
`n` bits of a buffer. -/
def bitsVal (l : List Nat) : Nat → Nat
  | 0 => 0
  | n + 1 => 2 * bitsVal l n + (bitAt l n).toNat

/-- Big-endian value of a byte string. -/
def beVal : List Nat → Nat
  | [] => 0
  | x :: l => x * 256 ^ l.length + beVal l

/-- Three-way comparison of two natural numbers, with results -1, 0, 1. -/
def sgn (x y : Nat) : Int := if x < y then -1 else if y < x then 1 else 0

/-- The first `n` bits of the first `len` bytes of a buffer, read as a number. -/
def topBits (l : List Nat) (len n : Nat) : Nat := beVal (l.take len) / 2 ^ (8 * len - n)

/-- The address bytes of a value (4 for IPv4, 16 otherwise), read as one number. -/
def fullVal (a : inet) : Nat := beVal (a.ipaddr.take (ip_maxbits a / 8))

/-- The network part of a value: the address with the bits after the mask cleared. -/
def netVal (a : inet) : Nat :=
  fullVal a / 2 ^ (ip_maxbits a - a.bits) * 2 ^ (ip_maxbits a - a.bits)

/-- Lexicographic order on (family, network part, mask length, address). -/
def keyLt (a b : inet) : Prop :=
  a.family < b.family ∨ (a.family = b.family ∧
    (netVal a < netVal b ∨ (netVal a = netVal b ∧
      (a.bits < b.bits ∨ (a.bits = b.bits ∧ fullVal a < fullVal b)))))

/-- The value computed by the same-family branch of `pgsql_network_cmp` from the two
addresses `A`, `B` (as numbers of `W` bits) and the two mask lengths `p`, `q`. -/
def cmpVal (A B W p q : Nat) : Int :=
  if sgn (A / 2 ^ (W - Min p q)) (B / 2 ^ (W - Min p q)) ≠ 0 then
    sgn (A / 2 ^ (W - Min p q)) (B / 2 ^ (W - Min p q))
  else if (p : Int) - (q : Int) ≠ 0 then (p : Int) - (q : Int)
  else sgn A B

/-! ## Helper lemmas: arithmetic -/

theorem sgn_self (x : Nat) : sgn x x = 0 := by simp [sgn]

theorem sgn_swap (x y : Nat) : sgn y x = - sgn x y := by
  unfold sgn; split_ifs <;> first | rfl | omega

theorem sgn_mul_add (P x y A B : Nat) (hA : A < P) (hB : B < P) :
    sgn (x * P + A) (y * P + B) = if x < y then -1 else if y < x then 1 else sgn A B := by
  rcases Nat.lt_trichotomy x y with h | h | h
  · have h1 : (x + 1) * P ≤ y * P := Nat.mul_le_mul_right P h
    have h2 : (x + 1) * P = x * P + P := by ring
    have : x * P + A < y * P + B := by omega
    simp [sgn, h, this]
  · subst h
    simp [sgn]
  · have h1 : (y + 1) * P ≤ x * P := Nat.mul_le_mul_right P h
    have h2 : (y + 1) * P = y * P + P := by ring
    have : y * P + B < x * P + A := by omega
    have h3 : ¬ (x * P + A < y * P + B) := by omega
    have h4 : ¬ x < y := by omega
    simp [sgn, h, this, h3, h4]

theorem beVal_lt (l : List Nat) (h : ∀ x ∈ l, x < 256) : beVal l < 256 ^ l.length := by
  induction l with
  | nil => simp [beVal]
  | cons x l ih =>
    have hx : x < 256 := h x (List.mem_cons_self _ _)
    have hl := ih (fun y hy => h y (List.mem_cons_of_mem _ hy))
    have h1 : (x + 1) * 256 ^ l.length ≤ 256 * 256 ^ l.length := Nat.mul_le_mul_right _ hx
    have h2 : (x + 1) * 256 ^ l.length = x * 256 ^ l.length + 256 ^ l.length := by ring
    simp only [beVal, List.length_cons, pow_succ]
    omega

theorem beVal_append (u v : List Nat) :
    beVal (u ++ v) = beVal u * 256 ^ v.length + beVal v := by
  induction u with
  | nil => simp [beVal]
  | cons x u ih =>
    have h : beVal (x :: (u ++ v)) = x * 256 ^ (u ++ v).length + beVal (u ++ v) := rfl
    have h2 : beVal (x :: u) = x * 256 ^ u.length + beVal u := rfl
    rw [List.cons_append, h, h2, ih, List.length_append, pow_add]
    ring

theorem beVal_inj : ∀ (u v : List Nat), u.length = v.length →
    (∀ x ∈ u, x < 256) → (∀ x ∈ v, x < 256) → beVal u = beVal v → u = v := by
  intro u
  induction u with
  | nil =>
    intro v hlen _ _ _
    cases v with
    | nil => rfl
    | cons y v => simp at hlen
  | cons x u ih =>
    intro v hlen hu hv h
    cases v with
    | nil => simp at hlen
    | cons y v =>
      have hlen2 : u.length = v.length := by simpa using hlen
      have bu : ∀ z ∈ u, z < 256 := fun z hz => hu z (List.mem_cons_of_mem _ hz)
      have bv : ∀ z ∈ v, z < 256 := fun z hz => hv z (List.mem_cons_of_mem _ hz)
      have h1 := beVal_lt u bu
      have h2 := beVal_lt v bv
      rw [← hlen2] at h2
      have h3 := sgn_mul_add (256 ^ u.length) x y (beVal u) (beVal v) h1 h2
      have h4 : sgn (x * 256 ^ u.length + beVal u) (y * 256 ^ u.length + beVal v) = 0 := by
        have e : x * 256 ^ u.length + beVal u = y * 256 ^ u.length + beVal v := by
          simpa [beVal, hlen2] using h
        rw [e, sgn_self]
      rw [h4] at h3
      have hxy : x = y := by
        by_contra hne
        split_ifs at h3 <;> omega
      subst hxy
      have hs : sgn (beVal u) (beVal v) = 0 := by simpa using h3.symm
      have huv : beVal u = beVal v := by
        unfold sgn at hs
        split_ifs at hs <;> omega
      rw [ih v hlen2 bu bv huv]

/-! ## Helper lemmas: `memcmp` and the bit loop -/

theorem memcmp_val (n : Nat) : ∀ (l r : List Nat), n ≤ l.length → n ≤ r.length →
    (∀ x ∈ l, x < 256) → (∀ x ∈ r, x < 256) →
    memcmp l r n = some (sgn (beVal (l.take n)) (beVal (r.take n))) := by
  induction n with
  | zero => intro l r _ _ _ _; simp [memcmp, beVal, sgn]
  | succ n ih =>
    intro l r hl hr bl br
    cases l with
    | nil => simp at hl
    | cons x l =>
      cases r with
      | nil => simp at hr
      | cons y r =>
        have hl2 : n ≤ l.length := by simpa using hl
        have hr2 : n ≤ r.length := by simpa using hr
        have bl2 : ∀ z ∈ l, z < 256 := fun z hz => bl z (List.mem_cons_of_mem _ hz)
        have br2 : ∀ z ∈ r, z < 256 := fun z hz => br z (List.mem_cons_of_mem _ hz)
        have h := ih l r hl2 hr2 bl2 br2
        have h1 : beVal (l.take n) < 256 ^ n := by
          have := beVal_lt (l.take n) (fun z hz => bl2 z (List.mem_of_mem_take hz))
          simpa [List.length_take, hl2] using this
        have h2 : beVal (r.take n) < 256 ^ n := by
          have := beVal_lt (r.take n) (fun z hz => br2 z (List.mem_of_mem_take hz))
          simpa [List.length_take, hr2] using this
        have h3 := sgn_mul_add (256 ^ n) x y _ _ h1 h2
        simp only [memcmp, h, List.take_succ_cons, beVal, List.length_take,
          Nat.min_eq_left hl2, Nat.min_eq_left hr2, h3]

set_option maxRecDepth 20000 in
theorem and_highbit : ∀ m : Nat, m < 256 → m &&& 128 = 128 * (m / 128) := by
  decide

theorem IS_HIGHBIT_SET_eq (x : Nat) : IS_HIGHBIT_SET x = 128 * (x % 256 / 128) :=
  and_highbit (x % 256) (Nat.mod_lt _ (by norm_num))

theorem bitncmp_loop_val (k : Nat) : ∀ (x y : Nat), k ≤ 8 →
    bitncmp_loop k x y = sgn (x % 256 / 2 ^ (8 - k)) (y % 256 / 2 ^ (8 - k)) := by
  induction k with
  | zero =>
    intro x y _
    have hx : x % 256 / 256 = 0 := by omega
    have hy : y % 256 / 256 = 0 := by omega
    simp [bitncmp_loop, hx, hy, sgn]
  | succ k ih =>
    intro x y hk
    have hk7 : k ≤ 7 := by omega
    have ih2 := ih ((x <<< 1) % 2 ^ 32) ((y <<< 1) % 2 ^ 32) (by omega)
    have e8 : 8 - (k + 1) = 7 - k := by omega
    have key : ∀ z : Nat, (z <<< 1) % 2 ^ 32 % 256 / 2 ^ (8 - k) = z % 256 % 128 / 2 ^ (7 - k) ∧
        z % 256 / 2 ^ (7 - k) = (z % 256 / 128) * 2 ^ k + z % 256 % 128 / 2 ^ (7 - k) ∧
        z % 256 % 128 / 2 ^ (7 - k) < 2 ^ k := by
      intro z
      rw [Nat.shiftLeft_eq]
      interval_cases k <;> norm_num <;> omega
    obtain ⟨x1, x2, x3⟩ := key x
    obtain ⟨y1, y2, y3⟩ := key y
    have h3 := sgn_mul_add (2 ^ k) (x % 256 / 128) (y % 256 / 128) _ _ x3 y3
    rw [e8, x2, y2, h3]
    have hxb : x % 256 / 128 < 2 := by omega
    have hyb : y % 256 / 128 < 2 := by omega
    simp only [bitncmp_loop, IS_HIGHBIT_SET_eq, ih2, x1, y1]
    split_ifs <;> first | rfl | omega

/-! ## Helper lemmas: the first bits of a buffer as a number -/

theorem pow256 (m : Nat) : 256 ^ m = 2 ^ (8 * m) := by
  rw [pow_mul]; norm_num

theorem beVal_take_div (l : List Nat) (b L : Nat) (hb : b ≤ L) (hL : L ≤ l.length)
    (bl : ∀ x ∈ l, x < 256) : beVal (l.take L) / 256 ^ (L - b) = beVal (l.take b) := by
  have e1 : (l.take L).take b = l.take b := by
    rw [List.take_take, Nat.min_eq_left hb]
  have e2 : l.take L = l.take b ++ (l.take L).drop b := by
    rw [← e1, List.take_append_drop]
  have hlen : ((l.take L).drop b).length = L - b := by
    simp [List.length_drop, List.length_take, Nat.min_eq_left hL]
  have hlt : beVal ((l.take L).drop b) < 256 ^ (L - b) := by
    have := beVal_lt ((l.take L).drop b)
      (fun z hz => bl z (List.mem_of_mem_take (List.mem_of_mem_drop hz)))
    rwa [hlen] at this
  rw [e2, beVal_append, hlen]
  have hpos : 0 < 256 ^ (L - b) := by positivity
  rw [Nat.add_comm, Nat.add_mul_div_right _ _ hpos, Nat.div_eq_of_lt hlt, Nat.zero_add]

theorem topBits_aligned (l : List Nat) (L n : Nat) (hL : L ≤ l.length) (hn : n ≤ 8 * L)
    (bl : ∀ x ∈ l, x < 256) (h8 : n % 8 = 0) : topBits l L n = beVal (l.take (n / 8)) := by
  unfold topBits
  have e : 8 * L - n = 8 * (L - n / 8) := by omega
  rw [e, ← pow256]
  exact beVal_take_div l (n / 8) L (by omega) hL bl

theorem topBits_split (l : List Nat) (L n : Nat) (hL : L ≤ l.length) (hn : n ≤ 8 * L)
    (bl : ∀ x ∈ l, x < 256) (h8 : n % 8 ≠ 0) :
    ∃ x, l.get? (n / 8) = some x ∧ x < 256 ∧
      topBits l L n = beVal (l.take (n / 8)) * 2 ^ (n % 8) + x / 2 ^ (8 - n % 8) ∧
      x / 2 ^ (8 - n % 8) < 2 ^ (n % 8) := by
  have hb : n / 8 < l.length := by omega
  refine ⟨l.get ⟨n / 8, hb⟩, List.get?_eq_get hb, bl _ (List.get_mem _ _ _), ?_, ?_⟩
  · have hx : l.get ⟨n / 8, hb⟩ < 256 := bl _ (List.get_mem _ _ _)
    unfold topBits
    have e : 8 * L - n = 8 * (L - (n / 8 + 1)) + (8 - n % 8) := by omega
    rw [e, pow_add, ← pow256, ← Nat.div_div_eq_div_mul,
      beVal_take_div l (n / 8 + 1) L (by omega) hL bl]
    have e2 : l.take (n / 8 + 1) = l.take (n / 8) ++ [l.get ⟨n / 8, hb⟩] := by
      rw [List.take_succ, List.getElem?_eq_getElem hb]; rfl
    rw [e2, beVal_append]
    generalize l.get ⟨n / 8, hb⟩ = x at hx
    generalize beVal (List.take (n / 8) l) = A
    have hx2 : beVal [x] = x := by simp [beVal]
    rw [hx2]
    have hk : n % 8 < 8 := Nat.mod_lt _ (by norm_num)
    generalize n % 8 = k at h8 hk
    interval_cases k <;> norm_num <;> omega
  · have hx : l.get ⟨n / 8, hb⟩ < 256 := bl _ (List.get_mem _ _ _)
    generalize l.get ⟨n / 8, hb⟩ = x at hx
    have hk : n % 8 < 8 := Nat.mod_lt _ (by norm_num)
    generalize n % 8 = k at h8 hk
    interval_cases k <;> norm_num <;> omega

theorem bitncmp_val (l r : List Nat) (L n : Nat) (hl : L ≤ l.length) (hr : L ≤ r.length)
    (hn : n ≤ 8 * L) (bl : ∀ x ∈ l, x < 256) (br : ∀ x ∈ r, x < 256) :
    bitncmp l r n = some (sgn (topBits l L n) (topBits r L n)) := by
  have hm := memcmp_val (n / 8) l r (by omega) (by omega) bl br
  unfold bitncmp
  simp only [hm]
  by_cases h8 : n % 8 = 0
  · rw [topBits_aligned l L n hl hn bl h8, topBits_aligned r L n hr hn br h8]
    simp [h8]
  · obtain ⟨x, hx1, hx2, hx3, hx4⟩ := topBits_split l L n hl hn bl h8
    obtain ⟨y, hy1, hy2, hy3, hy4⟩ := topBits_split r L n hr hn br h8
    rw [hx3, hy3, sgn_mul_add _ _ _ _ _ hx4 hy4, hx1, hy1]
    have hlv := bitncmp_loop_val (n % 8) x y (by omega)
    rw [Nat.mod_eq_of_lt hx2, Nat.mod_eq_of_lt hy2] at hlv
    simp only [h8, or_false, hlv]
    unfold sgn
    split_ifs <;> first | rfl | omega

/-! ## Helper lemmas: the bits of a buffer -/

theorem testBit_beVal : ∀ (u : List Nat), (∀ x ∈ u, x < 256) → ∀ t, t < 8 * u.length →
    (beVal u).testBit t = (u.getD (u.length - 1 - t / 8) 0).testBit (t % 8) := by
  intro u
  induction u with
  | nil => intro _ t ht; simp at ht
  | cons x u ih =>
    intro hb t ht
    have bu : ∀ z ∈ u, z < 256 := fun z hz => hb z (List.mem_cons_of_mem _ hz)
    have hlt : beVal u < 2 ^ (8 * u.length) := by
      rw [← pow256]; exact beVal_lt u bu
    have e : beVal (x :: u) = 2 ^ (8 * u.length) * x + beVal u := by
      simp only [beVal, pow256]; ring
    rw [e, Nat.testBit_mul_pow_two_add x hlt t]
    simp only [List.length_cons] at ht ⊢
    by_cases h : t < 8 * u.length
    · have e2 : u.length + 1 - 1 - t / 8 = (u.length - 1 - t / 8) + 1 := by omega
      rw [if_pos h, ih bu t h, e2, List.getD_cons_succ]
    · have e2 : u.length + 1 - 1 - t / 8 = 0 := by omega
      have e3 : t - 8 * u.length = t % 8 := by omega
      rw [if_neg h, e2, List.getD_cons_zero, e3]

theorem getD_take_of_lt (l : List Nat) (L q : Nat) (h : q < L) :
    (l.take L).getD q 0 = l.getD q 0 := by
  simp [List.getD_eq_getElem?_getD, List.getElem?_take, h]

theorem testBit_topBits (l : List Nat) (L n j : Nat) (hl : L ≤ l.length) (hn : n ≤ 8 * L)
    (bl : ∀ x ∈ l, x < 256) (hj : j < n) :
    (topBits l L n).testBit j = bitAt l (n - 1 - j) := by
  unfold topBits bitAt
  have hlen : (l.take L).length = L := by simp [List.length_take, Nat.min_eq_left hl]
  have hb : ∀ x ∈ l.take L, x < 256 := fun z hz => bl z (List.mem_of_mem_take hz)
  rw [← Nat.shiftRight_eq_div_pow, Nat.testBit_shiftRight,
    testBit_beVal (l.take L) hb _ (by rw [hlen]; omega), hlen,
    getD_take_of_lt l L _ (by omega)]
  have e1 : L - 1 - (8 * L - n + j) / 8 = (n - 1 - j) / 8 := by omega
  have e2 : (8 * L - n + j) % 8 = 7 - (n - 1 - j) % 8 := by omega
  rw [e1, e2]

theorem topBits_lt (l : List Nat) (L n : Nat) (hl : L ≤ l.length) (hn : n ≤ 8 * L)
    (bl : ∀ x ∈ l, x < 256) : topBits l L n < 2 ^ n := by
  unfold topBits
  have hlen : (l.take L).length = L := by simp [List.length_take, Nat.min_eq_left hl]
  have hb : ∀ x ∈ l.take L, x < 256 := fun z hz => bl z (List.mem_of_mem_take hz)
  have h := beVal_lt (l.take L) hb
  rw [hlen, pow256] at h
  have e : 2 ^ (8 * L) = 2 ^ n * 2 ^ (8 * L - n) := by
    rw [← pow_add]; congr 1; omega
  rw [Nat.div_lt_iff_lt_mul (by positivity), ← e]
  exact h

theorem topBits_eq_iff (l r : List Nat) (L n : Nat) (hl : L ≤ l.length) (hr : L ≤ r.length)
    (hn : n ≤ 8 * L) (bl : ∀ x ∈ l, x < 256) (br : ∀ x ∈ r, x < 256) :
    topBits l L n = topBits r L n ↔ sameBits l r n := by
  constructor
  · intro h i hi
    have h1 := testBit_topBits l L n (n - 1 - i) hl hn bl (by omega)
    have h2 := testBit_topBits r L n (n - 1 - i) hr hn br (by omega)
    have e : n - 1 - (n - 1 - i) = i := by omega
    rw [e] at h1 h2
    rw [← h1, ← h2, h]
  · intro h
    apply Nat.eq_of_testBit_eq
    intro j
    by_cases hj : j < n
    · rw [testBit_topBits l L n j hl hn bl hj, testBit_topBits r L n j hr hn br hj]
      exact h _ (by omega)
    · have hp : 2 ^ n ≤ 2 ^ j := Nat.pow_le_pow_right (by norm_num) (by omega)
      rw [Nat.testBit_lt_two_pow (lt_of_lt_of_le (topBits_lt l L n hl hn bl) hp),
        Nat.testBit_lt_two_pow (lt_of_lt_of_le (topBits_lt r L n hr hn br) hp)]

theorem sgn_eq_zero_iff (x y : Nat) : sgn x y = 0 ↔ x = y := by
  unfold sgn; split_ifs <;> simp <;> omega

theorem sgn_neg_iff (x y : Nat) : sgn x y < 0 ↔ x < y := by
  unfold sgn; split_ifs <;> simp <;> omega

theorem sgn_pos_iff (x y : Nat) : 0 < sgn x y ↔ y < x := by
  unfold sgn; split_ifs <;> simp <;> omega

/-- On buffers of at least `L` bytes `bitncmp` returns, and returns 0 exactly when the
first `n` bits coincide. -/
theorem bitncmp_zero_iff (l r : List Nat) (L n : Nat) (hl : L ≤ l.length)
    (hr : L ≤ r.length) (hn : n ≤ 8 * L) (bl : ∀ x ∈ l, x < 256) (br : ∀ x ∈ r, x < 256) :
    ∃ v, bitncmp l r n = some v ∧ (v = 0 ↔ sameBits l r n) :=
  ⟨_, bitncmp_val l r L n hl hr hn bl br,
    (sgn_eq_zero_iff _ _).trans (topBits_eq_iff l r L n hl hr hn bl br)⟩

/-! ## Helper lemmas: the order computed by `pgsql_network_cmp` -/

theorem net_facts (A B W p q : Nat) (hpq : p ≤ q) (hq : q ≤ W) :
    (A / 2 ^ (W - p) < B / 2 ^ (W - p) →
      A / 2 ^ (W - p) * 2 ^ (W - p) < B / 2 ^ (W - q) * 2 ^ (W - q)) ∧
    (B / 2 ^ (W - p) < A / 2 ^ (W - p) →
      B / 2 ^ (W - q) * 2 ^ (W - q) < A / 2 ^ (W - p) * 2 ^ (W - p)) ∧
    (A / 2 ^ (W - p) = B / 2 ^ (W - p) →
      A / 2 ^ (W - p) * 2 ^ (W - p) ≤ B / 2 ^ (W - q) * 2 ^ (W - q)) := by
  have hs : 2 ^ (W - p) = 2 ^ (q - p) * 2 ^ (W - q) := by
    rw [← pow_add]; congr 1; omega
  have spos : 0 < 2 ^ (W - p) := by positivity
  have tpos : 0 < 2 ^ (W - q) := by positivity
  generalize 2 ^ (W - p) = s at hs spos
  generalize 2 ^ (W - q) = t at hs tpos
  generalize 2 ^ (q - p) = u at hs
  have hB1 : B / s * s ≤ B := Nat.div_mul_le_self B s
  have hB2 : B / t * t ≤ B := Nat.div_mul_le_self B t
  have hB3 : B < B / s * s + s := Nat.lt_div_mul_add spos
  have hF : B / s * s ≤ B / t * t := by
    have h1 : B / s * u * t ≤ B := by
      have : B / s * u * t = B / s * s := by rw [hs]; ring
      omega
    have h2 : B / s * u ≤ B / t := (Nat.le_div_iff_mul_le tpos).2 h1
    have h3 : B / s * u * t ≤ B / t * t := Nat.mul_le_mul_right t h2
    have : B / s * u * t = B / s * s := by rw [hs]; ring
    omega
  refine ⟨fun h => ?_, fun h => ?_, fun h => ?_⟩
  · have h1 : (A / s + 1) * s ≤ B / s * s := Nat.mul_le_mul_right s h
    have h2 : (A / s + 1) * s = A / s * s + s := by ring
    omega
  · have h1 : (B / s + 1) * s ≤ A / s * s := Nat.mul_le_mul_right s h
    have h2 : (B / s + 1) * s = B / s * s + s := by ring
    omega
  · rw [h]; exact hF

theorem cmpVal_key (A B W p q : Nat) (hp : p ≤ W) (hq : q ≤ W) :
    (cmpVal A B W p q < 0 ↔
      (A / 2 ^ (W - p) * 2 ^ (W - p) < B / 2 ^ (W - q) * 2 ^ (W - q) ∨
        (A / 2 ^ (W - p) * 2 ^ (W - p) = B / 2 ^ (W - q) * 2 ^ (W - q) ∧
          (p < q ∨ (p = q ∧ A < B))))) ∧
    (0 < cmpVal A B W p q ↔
      (B / 2 ^ (W - q) * 2 ^ (W - q) < A / 2 ^ (W - p) * 2 ^ (W - p) ∨
        (B / 2 ^ (W - q) * 2 ^ (W - q) = A / 2 ^ (W - p) * 2 ^ (W - p) ∧
          (q < p ∨ (q = p ∧ B < A))))) := by
  unfold cmpVal
  rcases Nat.lt_trichotomy p q with h | h | h
  · have hm : Min p q = p := by unfold Min; rw [if_pos h]
    obtain ⟨f1, f2, f3⟩ := net_facts A B W p q (by omega) hq
    rw [hm]
    generalize A / 2 ^ (W - p) * 2 ^ (W - p) = Na at f1 f2 f3 ⊢
    generalize B / 2 ^ (W - q) * 2 ^ (W - q) = Nb at f1 f2 f3 ⊢
    generalize A / 2 ^ (W - p) = Ta at f1 f2 f3 ⊢
    generalize B / 2 ^ (W - p) = Tb at f1 f2 f3 ⊢
    unfold sgn
    split_ifs <;> constructor <;> constructor <;> intro hh <;> omega
  · subst h
    have hm : Min p p = p := by unfold Min; simp
    obtain ⟨f1, f2, -⟩ := net_facts A B W p p (le_refl _) hq
    rw [hm]
    have f3 : A / 2 ^ (W - p) = B / 2 ^ (W - p) →
        A / 2 ^ (W - p) * 2 ^ (W - p) = B / 2 ^ (W - p) * 2 ^ (W - p) := fun e => by rw [e]
    generalize A / 2 ^ (W - p) * 2 ^ (W - p) = Na at f1 f2 f3 ⊢
    generalize B / 2 ^ (W - p) * 2 ^ (W - p) = Nb at f1 f2 f3 ⊢
    generalize A / 2 ^ (W - p) = Ta at f1 f2 f3 ⊢
    generalize B / 2 ^ (W - p) = Tb at f1 f2 f3 ⊢
    unfold sgn
    split_ifs <;> constructor <;> constructor <;> intro hh <;> omega
  · have hm : Min p q = q := by unfold Min; rw [if_neg (by omega)]
    obtain ⟨f1, f2, f3⟩ := net_facts B A W q p (by omega) hp
    rw [hm]
    generalize A / 2 ^ (W - p) * 2 ^ (W - p) = Na at f1 f2 f3 ⊢
    generalize B / 2 ^ (W - q) * 2 ^ (W - q) = Nb at f1 f2 f3 ⊢
    generalize A / 2 ^ (W - q) = Ta at f1 f2 f3 ⊢
    generalize B / 2 ^ (W - q) = Tb at f1 f2 f3 ⊢
    unfold sgn
    split_ifs <;> constructor <;> constructor <;> intro hh <;> omega

theorem ip_maxbits_cases (a : inet) : ip_maxbits a = 32 ∨ ip_maxbits a = 128 := by
  unfold ip_maxbits; split_ifs <;> simp

theorem ip_maxbits_congr (a b : inet) (h : a.family = b.family) :
    ip_maxbits b = ip_maxbits a := by
  unfold ip_maxbits; rw [h]

theorem topBits_ip (a : inet) (W n : Nat) (hW : ip_maxbits a = W) :
    topBits a.ipaddr (W / 8) n = fullVal a / 2 ^ (W - n) := by
  unfold topBits fullVal
  have h8 : 8 * (W / 8) = W := by
    rcases ip_maxbits_cases a with h | h <;> omega
  rw [h8, hW]

/-- On same-family values with mask lengths within the family's width, the bit
comparison over `n` bits returns, and compares the first `n` address bits as numbers. -/
theorem bitncmp_ip (a b : inet) (hwa : a.wf) (hwb : b.wf) (hf : a.family = b.family)
    (n : Nat) (hn : n ≤ ip_maxbits a) :
    bitncmp a.ipaddr b.ipaddr n =
      some (sgn (fullVal a / 2 ^ (ip_maxbits a - n)) (fullVal b / 2 ^ (ip_maxbits a - n))) := by
  obtain ⟨-, -, la, ba⟩ := hwa
  obtain ⟨-, -, lb, bb⟩ := hwb
  have hW := ip_maxbits_congr a b hf
  have hc := ip_maxbits_cases a
  have h := bitncmp_val a.ipaddr b.ipaddr (ip_maxbits a / 8) n (by omega) (by omega)
    (by omega) ba bb
  rw [topBits_ip a _ n rfl, topBits_ip b _ n hW] at h
  exact h

/-- The value of `pgsql_network_cmp` on well-formed values. -/
theorem cmp_val (a b : inet) (hwa : a.wf) (hwb : b.wf)
    (ha : a.bits ≤ ip_maxbits a) (hb : b.bits ≤ ip_maxbits b) :
    pgsql_network_cmp a b = some (if a.family = b.family then
      cmpVal (fullVal a) (fullVal b) (ip_maxbits a) a.bits b.bits
      else (a.family : Int) - (b.family : Int)) := by
  unfold pgsql_network_cmp
  by_cases hf : a.family = b.family
  · have hW := ip_maxbits_congr a b hf
    have hmin : Min a.bits b.bits ≤ ip_maxbits a := by
      unfold Min; split_ifs <;> omega
    have c1 := bitncmp_ip a b hwa hwb hf _ hmin
    have c2 := bitncmp_ip a b hwa hwb hf _ (le_refl _)
    simp only [Nat.sub_self, pow_zero, Nat.div_one] at c2
    simp only [hf, if_true, c1, c2, cmpVal]
    split_ifs <;> rfl
  · simp only [hf, if_false]

theorem cmp_key (a b : inet) (hwa : a.wf) (hwb : b.wf)
    (ha : a.bits ≤ ip_maxbits a) (hb : b.bits ≤ ip_maxbits b) :
    ∃ v, pgsql_network_cmp a b = some v ∧ (v < 0 ↔ keyLt a b) ∧ (0 < v ↔ keyLt b a) := by
  refine ⟨_, cmp_val a b hwa hwb ha hb, ?_⟩
  by_cases hf : a.family = b.family
  · have hW := ip_maxbits_congr a b hf
    rw [hW] at hb
    have h := cmpVal_key (fullVal a) (fullVal b) (ip_maxbits a) a.bits b.bits ha hb
    unfold keyLt netVal
    rw [hW, if_pos hf]
    constructor
    · rw [h.1]; constructor
      · intro hh; exact Or.inr ⟨hf, hh⟩
      · rintro (hh | ⟨-, hh⟩)
        · omega
        · exact hh
    · rw [h.2]; constructor
      · intro hh; exact Or.inr ⟨hf.symm, hh⟩
      · rintro (hh | ⟨-, hh⟩)
        · omega
        · exact hh
  · rw [if_neg hf]
    unfold keyLt
    constructor <;> constructor
    · intro hh; left; omega
    · rintro (hh | ⟨hh, -⟩)
      · omega
      · exact absurd hh hf
    · intro hh; left; omega
    · rintro (hh | ⟨hh, -⟩)
      · omega
      · exact absurd hh.symm hf

theorem keyLt_trans (a b c : inet) (h1 : keyLt a b) (h2 : keyLt b c) : keyLt a c := by
  unfold keyLt at *
  omega

theorem keyLt_asymm (a b : inet) (h1 : keyLt a b) : ¬ keyLt b a := by
  unfold keyLt at *
  omega

theorem keyLt_total (a b c : inet) (h1 : ¬ keyLt b a) (h2 : ¬ keyLt c b) : ¬ keyLt c a := by
  unfold keyLt at *
  omega

theorem keyLt_trans_le (a b c : inet) (h1 : keyLt a b) (h2 : ¬ keyLt c b) : keyLt a c := by
  unfold keyLt at *
  omega

theorem keyLt_le_trans (a b c : inet) (h1 : ¬ keyLt b a) (h2 : keyLt b c) : keyLt a c := by
  unfold keyLt at *
  omega

theorem fullVal_eq_iff (a b : inet) (hwa : a.wf) (hwb : b.wf) (hf : a.family = b.family) :
    fullVal a = fullVal b ↔
      a.ipaddr.take (ip_maxbits a / 8) = b.ipaddr.take (ip_maxbits a / 8) := by
  obtain ⟨-, -, la, ba⟩ := hwa
  obtain ⟨-, -, lb, bb⟩ := hwb
  unfold fullVal
  rw [ip_maxbits_congr a b hf]
  constructor
  · intro h
    have hc := ip_maxbits_cases a
    refine beVal_inj _ _ ?_ (fun z hz => ba z (List.mem_of_mem_take hz))
      (fun z hz => bb z (List.mem_of_mem_take hz)) h
    simp only [List.length_take, la, lb]
  · intro h; rw [h]

/-! ## The comparison is a total order -/

/-- C1: `pgsql_network_cmp` is transitive. For values of the C type `inet` whose mask
length is at most 32 (IPv4) or 128 (otherwise), the three comparisons return, and
cmp(a,b) <= 0 with cmp(b,c) <= 0 gives cmp(a,c) <= 0, strictly so as soon as one of
the two premises is strict. -/
theorem pgsql_network_cmp_trans (a b c : inet) (hwa : a.wf) (hwb : b.wf) (hwc : c.wf)
    (ha : a.bits ≤ ip_maxbits a) (hb : b.bits ≤ ip_maxbits b) (hc : c.bits ≤ ip_maxbits c) :
    ∃ x y z, pgsql_network_cmp a b = some x ∧ pgsql_network_cmp b c = some y ∧
      pgsql_network_cmp a c = some z ∧
      (x ≤ 0 → y ≤ 0 → z ≤ 0) ∧ (x < 0 → y ≤ 0 → z < 0) ∧ (x ≤ 0 → y < 0 → z < 0) := by
  obtain ⟨x, hx, x1, x2⟩ := cmp_key a b hwa hwb ha hb
  obtain ⟨y, hy, y1, y2⟩ := cmp_key b c hwb hwc hb hc
  obtain ⟨z, hz, z1, z2⟩ := cmp_key a c hwa hwc ha hc
  refine ⟨x, y, z, hx, hy, hz, ?_, ?_, ?_⟩
  · intro h1 h2
    have k1 : ¬ keyLt b a := fun k => by have := x2.2 k; omega
    have k2 : ¬ keyLt c b := fun k => by have := y2.2 k; omega
    have k3 := keyLt_total a b c k1 k2
    by_contra hz0
    exact k3 (z2.1 (by omega))
  · intro h1 h2
    have k2 : ¬ keyLt c b := fun k => by have := y2.2 k; omega
    exact z1.2 (keyLt_trans_le a b c (x1.1 h1) k2)
  · intro h1 h2
    have k1 : ¬ keyLt b a := fun k => by have := x2.2 k; omega
    exact z1.2 (keyLt_le_trans a b c k1 (y1.1 h2))

/-- C2: `pgsql_network_cmp` is antisymmetric. For values of the C type `inet` whose
mask length is within the family's width, both comparisons return, the sign of
cmp(a,b) is the opposite of the sign of cmp(b,a), cmp(a,b) < 0 iff cmp(b,a) > 0 and
cmp(a,b) = 0 iff cmp(b,a) = 0. -/
theorem pgsql_network_cmp_antisymm (a b : inet) (hwa : a.wf) (hwb : b.wf)
    (ha : a.bits ≤ ip_maxbits a) (hb : b.bits ≤ ip_maxbits b) :
    ∃ x y, pgsql_network_cmp a b = some x ∧ pgsql_network_cmp b a = some y ∧
      Int.sign x = - Int.sign y ∧ (x < 0 ↔ 0 < y) ∧ (x = 0 ↔ y = 0) := by
  obtain ⟨x, hx, x1, x2⟩ := cmp_key a b hwa hwb ha hb
  obtain ⟨y, hy, y1, y2⟩ := cmp_key b a hwb hwa hb ha
  have e1 : x < 0 ↔ 0 < y := x1.trans y2.symm
  have e2 : 0 < x ↔ y < 0 := x2.trans y1.symm
  refine ⟨x, y, hx, hy, ?_, e1, ?_⟩
  · rcases lt_trichotomy x 0 with h | h | h
    · rw [Int.sign_eq_neg_one_of_neg h, Int.sign_eq_one_of_pos (e1.1 h)]
    · have hy0 : y = 0 := by
        rcases lt_trichotomy y 0 with h' | h' | h'
        · have := e2.2 h'; omega
        · exact h'
        · have := e1.2 h'; omega
      rw [h, hy0]; rfl
    · rw [Int.sign_eq_one_of_pos h, Int.sign_eq_neg_one_of_neg (e2.1 h)]; rfl
  · constructor
    · intro h
      rcases lt_trichotomy y 0 with h' | h' | h'
      · have := e2.2 h'; omega
      · exact h'
      · have := e1.2 h'; omega
    · intro h
      rcases lt_trichotomy x 0 with h' | h' | h'
      · have := e1.1 h'; omega
      · exact h'
      · have := e2.1 h'; omega

/-- C3: equality is exact value identity. For values of the C type `inet` whose mask
length is within the family's width, `pgsql_network_cmp` returns a value `v`,
`pgsql_network_eq` returns whether `v = 0`, and `v = 0` holds iff the families are
equal, the mask lengths are equal and the first `ip_maxbits / 8` address bytes (4 for
IPv4, all 16 otherwise) are equal. -/
theorem pgsql_network_cmp_eq_zero_iff (a b : inet) (hwa : a.wf) (hwb : b.wf)
    (ha : a.bits ≤ ip_maxbits a) (hb : b.bits ≤ ip_maxbits b) :
    ∃ v, pgsql_network_cmp a b = some v ∧
      pgsql_network_eq a b = some (decide (v = 0)) ∧
      (v = 0 ↔ a.family = b.family ∧ a.bits = b.bits ∧
        a.ipaddr.take (ip_maxbits a / 8) = b.ipaddr.take (ip_maxbits a / 8)) := by
  obtain ⟨v, hv, v1, v2⟩ := cmp_key a b hwa hwb ha hb
  refine ⟨v, hv, by simp [pgsql_network_eq, hv], ?_⟩
  constructor
  · intro h0
    have k1 : ¬ keyLt a b := fun k => by have := v1.2 k; omega
    have k2 : ¬ keyLt b a := fun k => by have := v2.2 k; omega
    unfold keyLt at k1 k2
    have hf : a.family = b.family := by omega
    have hbits : a.bits = b.bits := by omega
    have hfull : fullVal a = fullVal b := by omega
    exact ⟨hf, hbits, (fullVal_eq_iff a b hwa hwb hf).1 hfull⟩
  · rintro ⟨hf, hbits, htake⟩
    have hfull := (fullVal_eq_iff a b hwa hwb hf).2 htake
    have hnet : netVal a = netVal b := by
      unfold netVal; rw [hfull, hbits, ip_maxbits_congr a b hf]
    have k1 : ¬ keyLt a b := by unfold keyLt; omega
    have k2 : ¬ keyLt b a := by unfold keyLt; omega
    by_contra hne
    rcases lt_trichotomy v 0 with h | h | h
    · exact k1 (v1.1 h)
    · exact hne h
    · exact k2 (v2.1 h)

theorem pgsql_network_cmp_trans_witness :
    ∃ x y z, pgsql_network_cmp (ipv4 8 [10, 0, 0, 0]) (ipv4 16 [10, 1, 0, 0]) = some x ∧
      pgsql_network_cmp (ipv4 16 [10, 1, 0, 0]) (ipv4 24 [10, 1, 2, 0]) = some y ∧
      pgsql_network_cmp (ipv4 8 [10, 0, 0, 0]) (ipv4 24 [10, 1, 2, 0]) = some z ∧
      (x ≤ 0 → y ≤ 0 → z ≤ 0) ∧ (x < 0 → y ≤ 0 → z < 0) ∧ (x ≤ 0 → y < 0 → z < 0) :=
  pgsql_network_cmp_trans (ipv4 8 [10, 0, 0, 0]) (ipv4 16 [10, 1, 0, 0])
    (ipv4 24 [10, 1, 2, 0]) (by decide) (by decide) (by decide) (by decide) (by decide)
    (by decide)

theorem pgsql_network_cmp_antisymm_witness :
    ∃ x y, pgsql_network_cmp (ipv4 24 [192, 0, 2, 0]) (ipv4 32 [192, 0, 2, 1]) = some x ∧
      pgsql_network_cmp (ipv4 32 [192, 0, 2, 1]) (ipv4 24 [192, 0, 2, 0]) = some y ∧
      Int.sign x = - Int.sign y ∧ (x < 0 ↔ 0 < y) ∧ (x = 0 ↔ y = 0) :=
  pgsql_network_cmp_antisymm (ipv4 24 [192, 0, 2, 0]) (ipv4 32 [192, 0, 2, 1])
    (by decide) (by decide) (by decide) (by decide)

theorem pgsql_network_cmp_eq_zero_iff_witness :
    ∃ v, pgsql_network_cmp (ipv4 24 [192, 0, 2, 1]) (ipv4 24 [192, 0, 2, 2]) = some v ∧
      pgsql_network_eq (ipv4 24 [192, 0, 2, 1]) (ipv4 24 [192, 0, 2, 2]) =
        some (decide (v = 0)) ∧
      (v = 0 ↔ (ipv4 24 [192, 0, 2, 1]).family = (ipv4 24 [192, 0, 2, 2]).family ∧
        (ipv4 24 [192, 0, 2, 1]).bits = (ipv4 24 [192, 0, 2, 2]).bits ∧
        (ipv4 24 [192, 0, 2, 1]).ipaddr.take (ip_maxbits (ipv4 24 [192, 0, 2, 1]) / 8) =
          (ipv4 24 [192, 0, 2, 2]).ipaddr.take (ip_maxbits (ipv4 24 [192, 0, 2, 1]) / 8)) :=
  pgsql_network_cmp_eq_zero_iff (ipv4 24 [192, 0, 2, 1]) (ipv4 24 [192, 0, 2, 2])
    (by decide) (by decide) (by decide) (by decide)

/-! ## Values of different families -/

/-- C4: family partition. When the two family fields differ, `pgsql_network_cmp`
returns a non-zero value, which for families among IPv4 and IPv6 is negative exactly
when the first is IPv4 and the second IPv6; and `pgsql_network_sub`, `_subeq`, `_sup`
and `_supeq` all return false. Nothing is assumed of the mask lengths or of the
address buffers. -/
theorem family_partition (a b : inet) (hf : a.family ≠ b.family) :
    (∃ v, pgsql_network_cmp a b = some v ∧ v ≠ 0 ∧
      ((a.family = PGSQL_AF_INET ∨ a.family = PGSQL_AF_INET6) →
       (b.family = PGSQL_AF_INET ∨ b.family = PGSQL_AF_INET6) →
        (v < 0 ↔ a.family = PGSQL_AF_INET ∧ b.family = PGSQL_AF_INET6))) ∧
    pgsql_network_sub a b = some false ∧ pgsql_network_subeq a b = some false ∧
    pgsql_network_sup a b = some false ∧ pgsql_network_supeq a b = some false := by
  refine ⟨⟨(a.family : Int) - (b.family : Int), ?_, ?_, ?_⟩, ?_, ?_, ?_, ?_⟩
  · simp [pgsql_network_cmp, hf]
  · omega
  · intro h1 h2
    simp only [PGSQL_AF_INET, PGSQL_AF_INET6, AF_INET] at h1 h2 ⊢
    omega
  · simp [pgsql_network_sub, hf]
  · simp [pgsql_network_subeq, hf]
  · simp [pgsql_network_sup, hf]
  · simp [pgsql_network_supeq, hf]

theorem family_partition_witness :
    (∃ v, pgsql_network_cmp (ipv4 8 [10, 0, 0, 0]) (ipv6 32 [0x20, 0x01, 0x0d, 0xb8]) = some v ∧
      v ≠ 0 ∧
      (((ipv4 8 [10, 0, 0, 0]).family = PGSQL_AF_INET ∨
          (ipv4 8 [10, 0, 0, 0]).family = PGSQL_AF_INET6) →
       ((ipv6 32 [0x20, 0x01, 0x0d, 0xb8]).family = PGSQL_AF_INET ∨
          (ipv6 32 [0x20, 0x01, 0x0d, 0xb8]).family = PGSQL_AF_INET6) →
        (v < 0 ↔ (ipv4 8 [10, 0, 0, 0]).family = PGSQL_AF_INET ∧
          (ipv6 32 [0x20, 0x01, 0x0d, 0xb8]).family = PGSQL_AF_INET6))) ∧
    pgsql_network_sub (ipv4 8 [10, 0, 0, 0]) (ipv6 32 [0x20, 0x01, 0x0d, 0xb8]) = some false ∧
    pgsql_network_subeq (ipv4 8 [10, 0, 0, 0]) (ipv6 32 [0x20, 0x01, 0x0d, 0xb8]) = some false ∧
    pgsql_network_sup (ipv4 8 [10, 0, 0, 0]) (ipv6 32 [0x20, 0x01, 0x0d, 0xb8]) = some false ∧
    pgsql_network_supeq (ipv4 8 [10, 0, 0, 0]) (ipv6 32 [0x20, 0x01, 0x0d, 0xb8]) = some false :=
  family_partition (ipv4 8 [10, 0, 0, 0]) (ipv6 32 [0x20, 0x01, 0x0d, 0xb8]) (by decide)

/-! ## Mask lengths and inclusion -/

theorem fullVal_div_eq_iff (a b : inet) (hwa : a.wf) (hwb : b.wf) (hf : a.family = b.family)
    (n : Nat) (hn : n ≤ ip_maxbits a) :
    fullVal a / 2 ^ (ip_maxbits a - n) = fullVal b / 2 ^ (ip_maxbits a - n) ↔
      sameBits a.ipaddr b.ipaddr n := by
  obtain ⟨-, -, la, ba⟩ := hwa
  obtain ⟨-, -, lb, bb⟩ := hwb
  have hW := ip_maxbits_congr a b hf
  have hc := ip_maxbits_cases a
  rw [← topBits_ip a _ n rfl, ← topBits_ip b _ n hW]
  exact topBits_eq_iff a.ipaddr b.ipaddr (ip_maxbits a / 8) n (by omega) (by omega)
    (by omega) ba bb

/-- The test shared by the four inclusion predicates: on same-family values it
returns, and holds exactly when the first `n` address bits coincide. -/
theorem bitncmp_ip_zero (a b : inet) (hwa : a.wf) (hwb : b.wf) (hf : a.family = b.family)
    (n : Nat) (hn : n ≤ ip_maxbits a) :
    ∃ r, (bitncmp a.ipaddr b.ipaddr n).map (fun x => decide (x = 0)) = some r ∧
      (r = true ↔ sameBits a.ipaddr b.ipaddr n) := by
  refine ⟨_, by rw [bitncmp_ip a b hwa hwb hf n hn]; rfl, ?_⟩
  rw [decide_eq_true_iff, sgn_eq_zero_iff]
  exact fullVal_div_eq_iff a b hwa hwb hf n hn

/-- C5: the shorter mask sorts first among equal network parts. For same-family
values of the C type `inet` with mask lengths within the family's width, if a.bits <
b.bits and the first a.bits address bits coincide, then `pgsql_network_cmp a b`
returns a negative value, whatever the remaining bits are. -/
theorem shorter_mask_first (a b : inet) (hwa : a.wf) (hwb : b.wf)
    (hf : a.family = b.family)
    (ha : a.bits ≤ ip_maxbits a) (hb : b.bits ≤ ip_maxbits b)
    (hlt : a.bits < b.bits) (hsame : sameBits a.ipaddr b.ipaddr a.bits) :
    ∃ v, pgsql_network_cmp a b = some v ∧ v < 0 := by
  refine ⟨_, cmp_val a b hwa hwb ha hb, ?_⟩
  have hm : Min a.bits b.bits = a.bits := by unfold Min; rw [if_pos hlt]
  have h0 := (sgn_eq_zero_iff _ _).2 ((fullVal_div_eq_iff a b hwa hwb hf a.bits ha).2 hsame)
  have hne : (a.bits : Int) - (b.bits : Int) ≠ 0 := by omega
  rw [if_pos hf]
  unfold cmpVal
  rw [hm, h0]
  simp only [ne_eq, not_true_eq_false, if_false, hne, not_false_eq_true, if_true]
  omega

theorem shorter_mask_first_witness :
    (∃ v, pgsql_network_cmp (ipv4 24 [192, 0, 2, 0]) (ipv4 32 [192, 0, 2, 1]) = some v ∧ v < 0) ∧
    (∃ v, pgsql_network_cmp (ipv4 8 [10, 0, 0, 0]) (ipv4 16 [10, 1, 0, 0]) = some v ∧ v < 0) :=
  ⟨shorter_mask_first (ipv4 24 [192, 0, 2, 0]) (ipv4 32 [192, 0, 2, 1]) (by decide) (by decide)
      (by decide) (by decide) (by decide) (by decide) (by decide),
    shorter_mask_first (ipv4 8 [10, 0, 0, 0]) (ipv4 16 [10, 1, 0, 0]) (by decide) (by decide)
      (by decide) (by decide) (by decide) (by decide) (by decide)⟩

/-- C6: the subnet predicates match their definition. For same-family values of the
C type `inet`, the mask length of `b` being within the family's width,
`pgsql_network_sub a b` returns true iff a.bits > b.bits and the first b.bits address bits coincide, and
`pgsql_network_subeq a b` returns true iff a.bits >= b.bits and the same bits
coincide. -/
theorem subnet_predicates (a b : inet) (hwa : a.wf) (hwb : b.wf)
    (hf : a.family = b.family) (hb : b.bits ≤ ip_maxbits b) :
    (∃ r, pgsql_network_sub a b = some r ∧
      (r = true ↔ a.bits > b.bits ∧ sameBits a.ipaddr b.ipaddr b.bits)) ∧
    (∃ s, pgsql_network_subeq a b = some s ∧
      (s = true ↔ a.bits ≥ b.bits ∧ sameBits a.ipaddr b.ipaddr b.bits)) := by
  have hb2 : b.bits ≤ ip_maxbits a := by rw [← ip_maxbits_congr a b hf]; exact hb
  obtain ⟨r, hr, hr2⟩ := bitncmp_ip_zero a b hwa hwb hf b.bits hb2
  constructor
  · unfold pgsql_network_sub
    rw [if_pos hf]
    by_cases h : a.bits > b.bits
    · rw [if_pos h]
      exact ⟨r, hr, by rw [hr2]; exact ⟨fun x => ⟨h, x⟩, fun x => x.2⟩⟩
    · rw [if_neg h]
      exact ⟨false, rfl, by simp; intro x; omega⟩
  · unfold pgsql_network_subeq
    rw [if_pos hf]
    by_cases h : a.bits ≥ b.bits
    · rw [if_pos h]
      exact ⟨r, hr, by rw [hr2]; exact ⟨fun x => ⟨h, x⟩, fun x => x.2⟩⟩
    · rw [if_neg h]
      exact ⟨false, rfl, by simp; intro x; omega⟩

theorem subnet_predicates_witness :
    ((∃ r, pgsql_network_sub (ipv4 24 [10, 1, 2, 0]) (ipv4 16 [10, 1, 0, 0]) = some r ∧
      (r = true ↔ (ipv4 24 [10, 1, 2, 0]).bits > (ipv4 16 [10, 1, 0, 0]).bits ∧
        sameBits (ipv4 24 [10, 1, 2, 0]).ipaddr (ipv4 16 [10, 1, 0, 0]).ipaddr
          (ipv4 16 [10, 1, 0, 0]).bits)) ∧
    (∃ s, pgsql_network_subeq (ipv4 24 [10, 1, 2, 0]) (ipv4 16 [10, 1, 0, 0]) = some s ∧
      (s = true ↔ (ipv4 24 [10, 1, 2, 0]).bits ≥ (ipv4 16 [10, 1, 0, 0]).bits ∧
        sameBits (ipv4 24 [10, 1, 2, 0]).ipaddr (ipv4 16 [10, 1, 0, 0]).ipaddr
          (ipv4 16 [10, 1, 0, 0]).bits))) ∧
    pgsql_network_sub (ipv4 24 [10, 1, 2, 0]) (ipv4 16 [10, 1, 0, 0]) = some true :=
  ⟨subnet_predicates (ipv4 24 [10, 1, 2, 0]) (ipv4 16 [10, 1, 0, 0]) (by decide) (by decide)
    (by decide) (by decide), by decide⟩

/-- C7: the supernet predicates are not the mirror images of the subnet predicates.
`10.0.0.0/8` has the shorter mask and agrees with `10.1.0.0/16` on its first 8 bits, and
`pgsql_network_sub` and `_subeq` hold of (10.1.0.0/16, 10.0.0.0/8); yet
`pgsql_network_sup` and `_supeq` return false on (10.0.0.0/8, 10.1.0.0/16), because they
compare over the 16 bits of the second argument. -/
theorem sup_not_mirror_of_sub :
    (ipv4 8 [10, 0, 0, 0]).bits < (ipv4 16 [10, 1, 0, 0]).bits ∧
    sameBits (ipv4 8 [10, 0, 0, 0]).ipaddr (ipv4 16 [10, 1, 0, 0]).ipaddr
      (ipv4 8 [10, 0, 0, 0]).bits ∧
    pgsql_network_sub (ipv4 16 [10, 1, 0, 0]) (ipv4 8 [10, 0, 0, 0]) = some true ∧
    pgsql_network_subeq (ipv4 16 [10, 1, 0, 0]) (ipv4 8 [10, 0, 0, 0]) = some true ∧
    pgsql_network_sup (ipv4 8 [10, 0, 0, 0]) (ipv4 16 [10, 1, 0, 0]) = some false ∧
    pgsql_network_supeq (ipv4 8 [10, 0, 0, 0]) (ipv4 16 [10, 1, 0, 0]) = some false := by
  decide

/-! ## `addressOK` -/

theorem mod_two_pow_eq_zero_iff (v m : Nat) :
    v % 2 ^ m = 0 ↔ ∀ t, t < m → v.testBit t = false := by
  constructor
  · intro h t ht
    have e := Nat.testBit_mod_two_pow v m t
    rw [h, Nat.zero_testBit] at e
    simpa [ht] using e.symm
  · intro h
    apply Nat.eq_of_testBit_eq
    intro t
    rw [Nat.testBit_mod_two_pow, Nat.zero_testBit]
    by_cases ht : t < m
    · simp [h t ht]
    · simp [ht]

theorem and_mask_eq_zero_iff (v nb : Nat) (hnb : nb < 8) :
    v &&& (0xff >>> nb) = 0 ↔ ∀ t, t < 8 - nb → v.testBit t = false := by
  have e : (0xff : Nat) >>> nb = 2 ^ (8 - nb) - 1 := by
    interval_cases nb <;> rfl
  rw [e, Nat.and_pow_two_sub_one_eq_mod]
  exact mod_two_pow_eq_zero_iff v (8 - nb)

/-- What the loop of `addressOK` decides, whenever it returns. -/
theorem addressOK_loop_sound (a : List Nat) : ∀ (k byte mask : Nat) (r : Bool),
    addressOK_loop a k byte mask = some r →
    (r = true ↔ (k = 0 ∨ (a.getD byte 0 &&& mask = 0 ∧
      ∀ j, byte < j → j < byte + k → a.getD j 0 &&& 0xff = 0))) := by
  intro k
  induction k with
  | zero =>
    intro byte mask r h
    simp only [addressOK_loop, Option.some.injEq] at h
    simp [← h]
  | succ k ih =>
    intro byte mask r h
    unfold addressOK_loop at h
    cases hg : a.get? byte with
    | none => rw [hg] at h; simp at h
    | some v =>
      rw [hg] at h
      have hv : a.getD byte 0 = v := by
        rw [List.getD_eq_getElem?_getD, ← List.get?_eq_getElem?, hg]; rfl
      simp only at h
      by_cases hz : v &&& mask = 0
      · rw [if_neg (by simpa using hz)] at h
        have := ih (byte + 1) 0xff r h
        rw [this, hv]
        constructor
        · rintro (h0 | ⟨h1, h2⟩)
          · subst h0
            exact Or.inr ⟨hz, fun j hj1 hj2 => by omega⟩
          · refine Or.inr ⟨hz, fun j hj1 hj2 => ?_⟩
            by_cases hj : j = byte + 1
            · rw [hj]; exact h1
            · exact h2 j (by omega) (by omega)
        · rintro (h0 | ⟨-, h2⟩)
          · omega
          · by_cases hk : k = 0
            · exact Or.inl hk
            · exact Or.inr ⟨h2 _ (by omega) (by omega), fun j hj1 hj2 =>
                h2 j (by omega) (by omega)⟩
      · rw [if_pos (by simpa using hz)] at h
        simp only [Option.some.injEq] at h
        rw [← h, hv]
        simp [hz]

/-- The loop of `addressOK` returns when the buffer holds the bytes it visits. -/
theorem addressOK_loop_returns (a : List Nat) : ∀ (k byte mask : Nat),
    byte + k ≤ a.length → ∃ r, addressOK_loop a k byte mask = some r := by
  intro k
  induction k with
  | zero => intro byte mask _; exact ⟨true, rfl⟩
  | succ k ih =>
    intro byte mask h
    unfold addressOK_loop
    have hb : byte < a.length := by omega
    rw [List.get?_eq_get hb]
    simp only
    split_ifs
    · exact ⟨false, rfl⟩
    · exact ih (byte + 1) 0xff (by omega)

theorem and_ff_eq_zero_iff (v : Nat) :
    v &&& 0xff = 0 ↔ ∀ t, t < 8 → v.testBit t = false := by
  have := and_mask_eq_zero_iff v 0 (by norm_num)
  simpa using this

/-- What `addressOK` decides, whenever it returns on a non-negative mask length: all
address bits from the mask length up to the family's width are zero. -/
theorem addressOK_sound (a : List Nat) (n : Nat) (family : Nat) (r : Bool)
    (h : addressOK a (n : Int) family = some r) :
    (r = true ↔ hostBitsZero a n (if family = PGSQL_AF_INET then 32 else 128)) := by
  unfold addressOK at h
  simp only at h
  by_cases hge : (n : Int) ≥ (if family = PGSQL_AF_INET then (32 : Int) else 128)
  · rw [if_pos hge] at h
    simp only [Option.some.injEq] at h
    rw [← h]
    simp only [true_iff]
    intro i h1 h2
    split_ifs at hge h2 <;> omega
  · rw [if_neg hge] at h
    have e1 : Int.tdiv (n : Int) 8 = ((n / 8 : Nat) : Int) := (Int.ofNat_tdiv n 8).symm
    have e2 : Int.tmod (n : Int) 8 = ((n % 8 : Nat) : Int) := (Int.ofNat_tmod n 8).symm
    rw [e1, e2, if_neg (by omega)] at h
    have hmask : (if (n : Int) ≠ 0 then (0xff : Nat) >>> ((n % 8 : Nat) : Int).toNat else 0xff)
        = 0xff >>> (n % 8) := by
      by_cases hn : n = 0
      · subst hn; rfl
      · rw [if_pos (by omega), Int.toNat_ofNat]
    rw [hmask] at h
    have hk : ((if family = PGSQL_AF_INET then (4 : Int) else 16) - ((n / 8 : Nat) : Int)).toNat
        = (if family = PGSQL_AF_INET then 4 else 16) - n / 8 := by
      split_ifs <;> omega
    rw [hk, Int.toNat_ofNat] at h
    have hs := addressOK_loop_sound a _ _ _ r h
    rw [hs, and_mask_eq_zero_iff _ _ (Nat.mod_lt _ (by norm_num))]
    have hn8 : n % 8 < 8 := Nat.mod_lt _ (by norm_num)
    unfold hostBitsZero bitAt
    by_cases hfam : family = PGSQL_AF_INET
    · simp only [hfam, if_true] at hge ⊢
      constructor
      · rintro (h0 | ⟨h1, h2⟩)
        · omega
        · intro i hi1 hi2
          by_cases hi : i / 8 = n / 8
          · rw [hi]; exact h1 _ (by omega)
          · exact (and_ff_eq_zero_iff _).1 (h2 (i / 8) (by omega) (by omega)) _ (by omega)
      · intro hall
        refine Or.inr ⟨fun t ht => ?_, fun j hj1 hj2 => (and_ff_eq_zero_iff _).2 fun t ht => ?_⟩
        · have := hall (8 * (n / 8) + (7 - t)) (by omega) (by omega)
          have e3 : (8 * (n / 8) + (7 - t)) / 8 = n / 8 := by omega
          have e4 : 7 - (8 * (n / 8) + (7 - t)) % 8 = t := by omega
          rwa [e3, e4] at this
        · have := hall (8 * j + (7 - t)) (by omega) (by omega)
          have e3 : (8 * j + (7 - t)) / 8 = j := by omega
          have e4 : 7 - (8 * j + (7 - t)) % 8 = t := by omega
          rwa [e3, e4] at this
    · simp only [hfam, if_false] at hge ⊢
      constructor
      · rintro (h0 | ⟨h1, h2⟩)
        · omega
        · intro i hi1 hi2
          by_cases hi : i / 8 = n / 8
          · rw [hi]; exact h1 _ (by omega)
          · exact (and_ff_eq_zero_iff _).1 (h2 (i / 8) (by omega) (by omega)) _ (by omega)
      · intro hall
        refine Or.inr ⟨fun t ht => ?_, fun j hj1 hj2 => (and_ff_eq_zero_iff _).2 fun t ht => ?_⟩
        · have := hall (8 * (n / 8) + (7 - t)) (by omega) (by omega)
          have e3 : (8 * (n / 8) + (7 - t)) / 8 = n / 8 := by omega
          have e4 : 7 - (8 * (n / 8) + (7 - t)) % 8 = t := by omega
          rwa [e3, e4] at this
        · have := hall (8 * j + (7 - t)) (by omega) (by omega)
          have e3 : (8 * j + (7 - t)) / 8 = j := by omega
          have e4 : 7 - (8 * j + (7 - t)) % 8 = t := by omega
          rwa [e3, e4] at this

/-- On a buffer that holds the family's address bytes and a non-negative mask length
`addressOK` returns. -/
theorem addressOK_returns (a : List Nat) (n : Nat) (family : Nat)
    (hlen : 16 ≤ a.length) : ∃ r, addressOK a (n : Int) family = some r := by
  unfold addressOK
  simp only
  by_cases hge : (n : Int) ≥ (if family = PGSQL_AF_INET then (32 : Int) else 128)
  · rw [if_pos hge]; exact ⟨true, rfl⟩
  · rw [if_neg hge]
    have e1 : Int.tdiv (n : Int) 8 = ((n / 8 : Nat) : Int) := (Int.ofNat_tdiv n 8).symm
    have e2 : Int.tmod (n : Int) 8 = ((n % 8 : Nat) : Int) := (Int.ofNat_tmod n 8).symm
    rw [e1, e2, if_neg (by omega)]
    apply addressOK_loop_returns
    rw [Int.toNat_ofNat]
    split_ifs at hge ⊢ <;> omega

/-! ## `pgsql_network_in` -/

/-- The body of `pgsql_network_in` after a successful `calloc`, by the decoder call. -/
theorem pgsql_network_in_eq (dec : Nat → List Char → List Nat → Int → Int × List Nat)
    (src : List Char) (is_cidr : Bool) :
    pgsql_network_in true dec src is_cidr =
      if (decoderCall dec src is_cidr).1 < 0 ∨
          (decoderCall dec src is_cidr).1 > (srcMaxbits src : Int) then
        some { status := PGSQL_ERROR_ADDRESS_FORMAT, dstp := none }
      else
        match (if is_cidr then
            addressOK (decoderCall dec src is_cidr).2 (decoderCall dec src is_cidr).1
              (srcFamily src)
          else some true) with
        | none => none
        | some ok =>
          if ok = false then some { status := PGSQL_ERROR_ADDRESS_CIDR_FORMAT, dstp := none }
          else some { status := PGSQL_OK,
                      dstp := some { family := srcFamily src,
                                     bits := ((decoderCall dec src is_cidr).1 % 256).toNat,
                                     ipaddr := (decoderCall dec src is_cidr).2 } } := by
  have h6 : PGSQL_AF_INET6 ≠ PGSQL_AF_INET := by decide
  by_cases hc : ':' ∈ src
  · simp [pgsql_network_in, decoderCall, srcFamily, srcMaxbits, ip_addrsize, ip_maxbits, hc, h6]
  · simp [pgsql_network_in, decoderCall, srcFamily, srcMaxbits, ip_addrsize, ip_maxbits, hc]

theorem srcMaxbits_eq (src : List Char) :
    (if srcFamily src = PGSQL_AF_INET then 32 else 128) = srcMaxbits src := by
  have h6 : PGSQL_AF_INET6 ≠ PGSQL_AF_INET := by decide
  unfold srcFamily srcMaxbits
  by_cases hc : ':' ∈ src <;> simp [hc, h6]

/-- C8: CIDR rejection without masking. Suppose `calloc` succeeds and the decoder,
called for a network block, returns a mask length `n` with 0 <= n <= maxbits of the
family and leaves `octets` in the sixteen-byte buffer. If some address bit at a
position >= n within the family's width is set, `pgsql_network_in` returns
`PGSQL_ERROR_ADDRESS_CIDR_FORMAT` and leaves `*dstp` NULL; if all those bits are zero
it returns `PGSQL_OK` with the address holding exactly `octets`. -/
theorem cidr_rejection (dec : Nat → List Char → List Nat → Int → Int × List Nat)
    (src : List Char) (n : Nat) (octets : List Nat)
    (hdec : decoderCall dec src true = ((n : Int), octets))
    (hmax : n ≤ srcMaxbits src) (hlen : 16 ≤ octets.length) :
    ((∃ i, n ≤ i ∧ i < srcMaxbits src ∧ bitAt octets i = true) →
      pgsql_network_in true dec src true =
        some { status := PGSQL_ERROR_ADDRESS_CIDR_FORMAT, dstp := none }) ∧
    ((∀ i, n ≤ i → i < srcMaxbits src → bitAt octets i = false) →
      pgsql_network_in true dec src true =
        some { status := PGSQL_OK,
               dstp := some { family := srcFamily src, bits := n, ipaddr := octets } }) := by
  obtain ⟨r, hr⟩ := addressOK_returns octets n (srcFamily src) hlen
  have hs := addressOK_sound octets n (srcFamily src) r hr
  rw [srcMaxbits_eq] at hs
  have hW : srcMaxbits src ≤ 128 := by unfold srcMaxbits; split_ifs <;> omega
  have hb : ((n : Int) % 256).toNat = n := by omega
  rw [pgsql_network_in_eq, hdec]
  simp only [if_true, hr]
  rw [if_neg (by omega)]
  constructor
  · rintro ⟨i, h1, h2, h3⟩
    have hrf : r = false := by
      cases r with
      | false => rfl
      | true =>
        have := hs.1 rfl i h1 h2
        rw [h3] at this
        exact absurd this (by decide)
    simp [hrf]
  · intro hall
    have hrt : r = true := hs.2 hall
    simp [hrt, hb]

theorem cidr_rejection_witness :
    pgsql_network_in true (constDecoder 24 [192, 0, 2, 1]) "192.0.2.1/24".toList true =
        some { status := PGSQL_ERROR_ADDRESS_CIDR_FORMAT, dstp := none } ∧
    pgsql_network_in true (constDecoder 24 [192, 0, 2, 0]) "192.0.2.0/24".toList true =
        some { status := PGSQL_OK,
               dstp := some { family := srcFamily "192.0.2.0/24".toList, bits := 24,
                              ipaddr := pad16 [192, 0, 2, 0] } } :=
  ⟨(cidr_rejection (constDecoder 24 [192, 0, 2, 1]) "192.0.2.1/24".toList 24
      (pad16 [192, 0, 2, 1]) (by decide) (by decide) (by decide)).1 ⟨31, by decide⟩,
   (cidr_rejection (constDecoder 24 [192, 0, 2, 0]) "192.0.2.0/24".toList 24
      (pad16 [192, 0, 2, 0]) (by decide) (by decide) (by decide)).2 (by decide)⟩

/-- C9: the parser establishes the address invariant. Whenever `pgsql_network_in`
returns `PGSQL_OK`, `*dstp` is an address whose family is IPv6 iff the text holds a
colon and IPv4 otherwise, whose mask length is the decoder's return value and is at
most 32 (IPv4) or 128 (IPv6), whose address bytes are what the decoder left in the
buffer, and, for a network block, whose bits from the mask length up to the family's
width are all zero. -/
theorem parser_invariant (calloc_ok : Bool)
    (dec : Nat → List Char → List Nat → Int → Int × List Nat)
    (src : List Char) (is_cidr : Bool) (r : in_result)
    (h : pgsql_network_in calloc_ok dec src is_cidr = some r) (hok : r.status = PGSQL_OK) :
    ∃ d, r.dstp = some d ∧
      (d.family = PGSQL_AF_INET6 ↔ ':' ∈ src) ∧ (d.family = PGSQL_AF_INET ↔ ':' ∉ src) ∧
      (d.bits : Int) = (decoderCall dec src is_cidr).1 ∧
      d.bits ≤ ip_maxbits d ∧
      (d.family = PGSQL_AF_INET → d.bits ≤ 32) ∧ (d.family = PGSQL_AF_INET6 → d.bits ≤ 128) ∧
      d.ipaddr = (decoderCall dec src is_cidr).2 ∧
      (is_cidr = true → hostBitsZero d.ipaddr d.bits (ip_maxbits d)) := by
  have h6 : PGSQL_AF_INET6 ≠ PGSQL_AF_INET := by decide
  cases calloc_ok with
  | false =>
    simp only [pgsql_network_in, if_true, Option.some.injEq] at h
    rw [← h] at hok
    exact absurd hok (by decide)
  | true =>
    rw [pgsql_network_in_eq] at h
    by_cases hbad : (decoderCall dec src is_cidr).1 < 0 ∨
        (decoderCall dec src is_cidr).1 > (srcMaxbits src : Int)
    · rw [if_pos hbad, Option.some.injEq] at h
      rw [← h] at hok
      exact absurd hok (by decide)
    · rw [if_neg hbad] at h
      have hW : srcMaxbits src ≤ 128 := by unfold srcMaxbits; split_ifs <;> omega
      obtain ⟨n, hn⟩ := Int.eq_ofNat_of_zero_le (by omega : 0 ≤ (decoderCall dec src is_cidr).1)
      have hnW : n ≤ srcMaxbits src := by omega
      have hb : ((n : Int) % 256).toNat = n := by omega
      have hfam6 : srcFamily src = PGSQL_AF_INET6 ↔ ':' ∈ src := by
        unfold srcFamily; by_cases hc : ':' ∈ src <;> simp [hc, h6.symm]
      have hfam4 : srcFamily src = PGSQL_AF_INET ↔ ':' ∉ src := by
        unfold srcFamily; by_cases hc : ':' ∈ src <;> simp [hc, h6]
      have hmb : ∀ l : List Nat, ip_maxbits (inet.mk (srcFamily src) n l) = srcMaxbits src := by
        intro l; unfold ip_maxbits; exact srcMaxbits_eq src
      have h32 : srcFamily src = PGSQL_AF_INET → n ≤ 32 := by
        intro hf
        have := srcMaxbits_eq src
        rw [if_pos hf] at this
        omega
      cases hcid : is_cidr with
      | false =>
        rw [hcid] at h hn
        simp only [Bool.false_eq_true, if_false, Bool.true_eq_false, Option.some.injEq] at h
        rw [hn, hb] at h
        refine ⟨_, by rw [← h], hfam6, hfam4, hn.symm, ?_, h32, ?_, rfl, ?_⟩
        · rw [hmb]; exact hnW
        · intro _; show n ≤ 128; omega
        · intro hh; exact absurd hh (by decide)
      | true =>
        rw [hcid] at h hn
        simp only [if_true] at h
        cases ha : addressOK (decoderCall dec src true).2 (decoderCall dec src true).1
            (srcFamily src) with
        | none => rw [ha] at h; simp at h
        | some ok =>
          rw [ha] at h
          simp only at h
          cases ok with
          | false =>
            simp only [if_true, Option.some.injEq] at h
            rw [← h] at hok
            exact absurd hok (by decide)
          | true =>
            simp only [Bool.true_eq_false, if_false, Option.some.injEq] at h
            rw [hn] at ha
            have hs := (addressOK_sound _ n (srcFamily src) true ha).1 rfl
            rw [srcMaxbits_eq] at hs
            rw [hn, hb] at h
            refine ⟨_, by rw [← h], hfam6, hfam4, hn.symm, ?_, h32, ?_, rfl, ?_⟩
            · rw [hmb]; exact hnW
            · intro _; show n ≤ 128; omega
            · intro _; rw [hmb]; exact hs

theorem parser_invariant_witness :
    pgsql_network_in true (constDecoder 8 [10, 0, 0, 0]) "10.0.0.0/8".toList true =
      some { status := PGSQL_OK, dstp := some (ipv4 8 [10, 0, 0, 0]) } ∧
    ∃ d, (in_result.mk PGSQL_OK (some (ipv4 8 [10, 0, 0, 0]))).dstp = some d ∧
      (d.family = PGSQL_AF_INET6 ↔ ':' ∈ "10.0.0.0/8".toList) ∧
      (d.family = PGSQL_AF_INET ↔ ':' ∉ "10.0.0.0/8".toList) ∧
      (d.bits : Int) = (decoderCall (constDecoder 8 [10, 0, 0, 0]) "10.0.0.0/8".toList true).1 ∧
      d.bits ≤ ip_maxbits d ∧
      (d.family = PGSQL_AF_INET → d.bits ≤ 32) ∧ (d.family = PGSQL_AF_INET6 → d.bits ≤ 128) ∧
      d.ipaddr = (decoderCall (constDecoder 8 [10, 0, 0, 0]) "10.0.0.0/8".toList true).2 ∧
      (true = true → hostBitsZero d.ipaddr d.bits (ip_maxbits d)) :=
  ⟨by decide,
    parser_invariant true (constDecoder 8 [10, 0, 0, 0]) "10.0.0.0/8".toList true
      (in_result.mk PGSQL_OK (some (ipv4 8 [10, 0, 0, 0]))) (by decide) rfl⟩

/-- C10: parser error atomicity. When the decoder leaves a sixteen-byte buffer,
`pgsql_network_in` returns; whenever its status is not `PGSQL_OK` the slot `*dstp` is
NULL; and its status is `PGSQL_ERROR_ADDRESS_FORMAT` exactly when the decoder was
reached (`calloc` succeeded) and reported a negative result or a mask length above
the family's width, whether or not the text was to be a network block and whatever
the host bits are. -/
theorem parser_error_atomicity (calloc_ok : Bool)
    (dec : Nat → List Char → List Nat → Int → Int × List Nat)
    (src : List Char) (is_cidr : Bool)
    (hlen : 16 ≤ (decoderCall dec src is_cidr).2.length) :
    ∃ r, pgsql_network_in calloc_ok dec src is_cidr = some r ∧
      (r.status ≠ PGSQL_OK → r.dstp = none) ∧
      (r.status = PGSQL_ERROR_ADDRESS_FORMAT ↔
        calloc_ok = true ∧ ((decoderCall dec src is_cidr).1 < 0 ∨
          (decoderCall dec src is_cidr).1 > (srcMaxbits src : Int))) := by
  cases calloc_ok with
  | false =>
    refine ⟨{ status := PGSQL_ERROR_MEMORY, dstp := none }, by simp [pgsql_network_in],
      fun _ => rfl, ?_⟩
    simp [PGSQL_ERROR_MEMORY, PGSQL_ERROR_ADDRESS_FORMAT]
  | true =>
    rw [pgsql_network_in_eq]
    by_cases hbad : (decoderCall dec src is_cidr).1 < 0 ∨
        (decoderCall dec src is_cidr).1 > (srcMaxbits src : Int)
    · rw [if_pos hbad]
      exact ⟨_, rfl, fun _ => rfl, fun _ => ⟨rfl, hbad⟩, fun _ => rfl⟩
    · rw [if_neg hbad]
      obtain ⟨n, hn⟩ := Int.eq_ofNat_of_zero_le (by omega : 0 ≤ (decoderCall dec src is_cidr).1)
      have hres : ∀ ok : Bool, ∃ r : in_result,
          (if ok = false then
              some ({ status := PGSQL_ERROR_ADDRESS_CIDR_FORMAT, dstp := none } : in_result)
            else some { status := PGSQL_OK,
                        dstp := some { family := srcFamily src,
                                       bits := ((decoderCall dec src is_cidr).1 % 256).toNat,
                                       ipaddr := (decoderCall dec src is_cidr).2 } }) = some r ∧
            (r.status ≠ PGSQL_OK → r.dstp = none) ∧
            (r.status = PGSQL_ERROR_ADDRESS_FORMAT ↔
              true = true ∧ ((decoderCall dec src is_cidr).1 < 0 ∨
                (decoderCall dec src is_cidr).1 > (srcMaxbits src : Int))) := by
        intro ok
        cases ok with
        | false =>
          refine ⟨_, rfl, fun _ => rfl, ?_⟩
          simp [PGSQL_ERROR_ADDRESS_CIDR_FORMAT, PGSQL_ERROR_ADDRESS_FORMAT, hbad]
        | true =>
          refine ⟨_, rfl, fun hh => absurd rfl hh, ?_⟩
          simp [PGSQL_OK, PGSQL_ERROR_ADDRESS_FORMAT, hbad]
      cases is_cidr with
      | false => exact hres true
      | true =>
        obtain ⟨ok, hok⟩ := addressOK_returns (decoderCall dec src true).2 n (srcFamily src) hlen
        rw [← hn] at hok
        rw [if_pos rfl, hok]
        exact hres ok

theorem parser_error_atomicity_witness :
    ∃ r, pgsql_network_in true (constDecoder (-1) []) "bad.address".toList false = some r ∧
      (r.status ≠ PGSQL_OK → r.dstp = none) ∧
      (r.status = PGSQL_ERROR_ADDRESS_FORMAT ↔
        true = true ∧ ((decoderCall (constDecoder (-1) []) "bad.address".toList false).1 < 0 ∨
          (decoderCall (constDecoder (-1) []) "bad.address".toList false).1 >
            (srcMaxbits "bad.address".toList : Int))) :=
  parser_error_atomicity true (constDecoder (-1) []) "bad.address".toList false (by decide)

/-! ## `pgsql_network_out` -/

/-- C11: the formatter builds the masked text but does not deliver it. Whatever the
encoder, the address and the flag, `pgsql_network_out` leaves `*dstp` NULL. On the
network block 192.0.2.1/32, for which the encoder writes `192.0.2.1`, it returns
`PGSQL_OK` and its local `dst` holds `192.0.2.1/32`, yet `*dstp` is NULL; likewise
for a text that already has a slash and for a host address. -/
theorem pgsql_network_out_delivers_nothing :
    (∀ (enc : Nat → List Nat → Nat → Nat → Option (List Char)) (strdup_ok : Bool)
        (src : inet) (is_cidr : Bool),
      (pgsql_network_out enc strdup_ok src is_cidr).dstp = none) ∧
    pgsql_network_out (constEncoder "192.0.2.1".toList) true (ipv4 32 [192, 0, 2, 1]) true =
      { status := PGSQL_OK, dstp := none, dst := some "192.0.2.1/32".toList } ∧
    pgsql_network_out (constEncoder "192.0.2.0/24".toList) true (ipv4 24 [192, 0, 2, 0]) true =
      { status := PGSQL_OK, dstp := none, dst := some "192.0.2.0/24".toList } ∧
    pgsql_network_out (constEncoder "192.0.2.1".toList) true (ipv4 32 [192, 0, 2, 1]) false =
      { status := PGSQL_OK, dstp := none, dst := some "192.0.2.1".toList } := by
  refine ⟨?_, by decide, by decide, by decide⟩
  intro enc strdup_ok src is_cidr
  unfold pgsql_network_out
  cases enc src.family src.ipaddr src.bits sizeof_tmp <;> rfl

/-- C12: the round trip does not return the text. Parsing `2001:db8::1` (with a
decoder that yields its sixteen bytes and 128) succeeds; formatting the result with
an encoder that writes `2001:db8::1` returns `PGSQL_OK` and builds that text in the
local `dst`, but `*dstp` is NULL. -/
theorem round_trip_text_not_delivered :
    pgsql_network_in true
        (constDecoder 128 [0x20, 0x01, 0x0d, 0xb8, 0, 0, 0, 0, 0, 0, 0, 0, 0, 0, 0, 1])
        "2001:db8::1".toList false =
      some { status := PGSQL_OK,
             dstp := some (ipv6 128 [0x20, 0x01, 0x0d, 0xb8, 0, 0, 0, 0, 0, 0, 0, 0, 0, 0, 0, 1]) } ∧
    pgsql_network_out (constEncoder "2001:db8::1".toList) true
        (ipv6 128 [0x20, 0x01, 0x0d, 0xb8, 0, 0, 0, 0, 0, 0, 0, 0, 0, 0, 0, 1]) false =
      { status := PGSQL_OK, dstp := none, dst := some "2001:db8::1".toList } := by
  decide

/-! ## The relational predicates -/

/-- C13: the six relational predicates are consistent with the three-way comparison.
For values of the C type `inet` with mask lengths within the family's width,
`pgsql_network_cmp` returns a value `c` and the six predicates return; each is true
iff `c` is respectively < 0, = 0, > 0, <= 0, >= 0, != 0; exactly one of lt, eq, gt is
true; le = lt or eq, ge = gt or eq, ne = not eq. -/
theorem relational_predicates (a b : inet) (hwa : a.wf) (hwb : b.wf)
    (ha : a.bits ≤ ip_maxbits a) (hb : b.bits ≤ ip_maxbits b) :
    ∃ (c : Int) (lt eq gt le ge ne : Bool),
      pgsql_network_cmp a b = some c ∧
      pgsql_network_lt a b = some lt ∧ pgsql_network_eq a b = some eq ∧
      pgsql_network_gt a b = some gt ∧ pgsql_network_le a b = some le ∧
      pgsql_network_ge a b = some ge ∧ pgsql_network_ne a b = some ne ∧
      (lt = true ↔ c < 0) ∧ (eq = true ↔ c = 0) ∧ (gt = true ↔ c > 0) ∧
      (le = true ↔ c ≤ 0) ∧ (ge = true ↔ c ≥ 0) ∧ (ne = true ↔ c ≠ 0) ∧
      ((lt = true ∧ eq = false ∧ gt = false) ∨ (lt = false ∧ eq = true ∧ gt = false) ∨
        (lt = false ∧ eq = false ∧ gt = true)) ∧
      le = (lt || eq) ∧ ge = (gt || eq) ∧ ne = !eq := by
  have hc := cmp_val a b hwa hwb ha hb
  generalize (if a.family = b.family then
      cmpVal (fullVal a) (fullVal b) (ip_maxbits a) a.bits b.bits
      else (a.family : Int) - (b.family : Int)) = c at hc
  refine ⟨c, decide (c < 0), decide (c = 0), decide (c > 0), decide (c ≤ 0), decide (c ≥ 0),
    decide (c ≠ 0), hc, by simp [pgsql_network_lt, hc], by simp [pgsql_network_eq, hc],
    by simp [pgsql_network_gt, hc], by simp [pgsql_network_le, hc],
    by simp [pgsql_network_ge, hc], by simp [pgsql_network_ne, hc],
    decide_eq_true_iff, decide_eq_true_iff, decide_eq_true_iff, decide_eq_true_iff,
    decide_eq_true_iff, decide_eq_true_iff, ?_, ?_, ?_, ?_⟩
  · rcases lt_trichotomy c 0 with h | h | h
    · left
      refine ⟨decide_eq_true h, decide_eq_false (by omega), decide_eq_false (by omega)⟩
    · right; left
      refine ⟨decide_eq_false (by omega), decide_eq_true h, decide_eq_false (by omega)⟩
    · right; right
      refine ⟨decide_eq_false (by omega), decide_eq_false (by omega), decide_eq_true h⟩
  · rw [← Bool.decide_or]
    exact decide_eq_decide.2 ⟨fun h => by omega, fun h => by omega⟩
  · rw [← Bool.decide_or]
    exact decide_eq_decide.2 ⟨fun h => by omega, fun h => by omega⟩
  · simp

theorem relational_predicates_witness :
    ∃ (c : Int) (lt eq gt le ge ne : Bool),
      pgsql_network_cmp (ipv4 24 [192, 0, 2, 0]) (ipv4 32 [192, 0, 2, 1]) = some c ∧
      pgsql_network_lt (ipv4 24 [192, 0, 2, 0]) (ipv4 32 [192, 0, 2, 1]) = some lt ∧
      pgsql_network_eq (ipv4 24 [192, 0, 2, 0]) (ipv4 32 [192, 0, 2, 1]) = some eq ∧
      pgsql_network_gt (ipv4 24 [192, 0, 2, 0]) (ipv4 32 [192, 0, 2, 1]) = some gt ∧
      pgsql_network_le (ipv4 24 [192, 0, 2, 0]) (ipv4 32 [192, 0, 2, 1]) = some le ∧
      pgsql_network_ge (ipv4 24 [192, 0, 2, 0]) (ipv4 32 [192, 0, 2, 1]) = some ge ∧
      pgsql_network_ne (ipv4 24 [192, 0, 2, 0]) (ipv4 32 [192, 0, 2, 1]) = some ne ∧
      (lt = true ↔ c < 0) ∧ (eq = true ↔ c = 0) ∧ (gt = true ↔ c > 0) ∧
      (le = true ↔ c ≤ 0) ∧ (ge = true ↔ c ≥ 0) ∧ (ne = true ↔ c ≠ 0) ∧
      ((lt = true ∧ eq = false ∧ gt = false) ∨ (lt = false ∧ eq = true ∧ gt = false) ∨
        (lt = false ∧ eq = false ∧ gt = true)) ∧
      le = (lt || eq) ∧ ge = (gt || eq) ∧ ne = !eq :=
  relational_predicates (ipv4 24 [192, 0, 2, 0]) (ipv4 32 [192, 0, 2, 1])
    (by decide) (by decide) (by decide) (by decide)

/-! ## Equality and inclusion -/

theorem cmp_zero_fields (a b : inet) (hwa : a.wf) (hwb : b.wf)
    (ha : a.bits ≤ ip_maxbits a) (hb : b.bits ≤ ip_maxbits b) :
    ∃ v, pgsql_network_cmp a b = some v ∧
      (v = 0 ↔ a.family = b.family ∧ a.bits = b.bits ∧ fullVal a = fullVal b) := by
  obtain ⟨v, hv, v1, v2⟩ := cmp_key a b hwa hwb ha hb
  refine ⟨v, hv, ?_⟩
  constructor
  · intro h0
    have k1 : ¬ keyLt a b := fun k => by have := v1.2 k; omega
    have k2 : ¬ keyLt b a := fun k => by have := v2.2 k; omega
    unfold keyLt at k1 k2
    exact ⟨by omega, by omega, by omega⟩
  · rintro ⟨hf, hbits, hfull⟩
    have hnet : netVal a = netVal b := by
      unfold netVal; rw [hfull, hbits, ip_maxbits_congr a b hf]
    have k1 : ¬ keyLt a b := by unfold keyLt; omega
    have k2 : ¬ keyLt b a := by unfold keyLt; omega
    by_contra hne
    rcases lt_trichotomy v 0 with h | h | h
    · exact k1 (v1.1 h)
    · exact hne h
    · exact k2 (v2.1 h)

theorem incl_test_of_fullVal_eq (a b : inet) (hwa : a.wf) (hwb : b.wf)
    (hf : a.family = b.family) (n : Nat) (hn : n ≤ ip_maxbits a)
    (h : fullVal a = fullVal b) :
    (bitncmp a.ipaddr b.ipaddr n).map (fun x => decide (x = 0)) = some true := by
  rw [bitncmp_ip a b hwa hwb hf n hn, h, sgn_self]
  rfl

/-- C14: equal values are subnets-or-equal of each other. For values of the C type
`inet` with mask lengths within the family's width, if `pgsql_network_eq a b` returns
true then `pgsql_network_subeq` returns true on (a,b) and on (b,a) while
`pgsql_network_sub` returns false on both; and `pgsql_network_subeq a a` returns
true. -/
theorem eq_implies_subeq (a b : inet) (hwa : a.wf) (hwb : b.wf)
    (ha : a.bits ≤ ip_maxbits a) (hb : b.bits ≤ ip_maxbits b) :
    (pgsql_network_eq a b = some true →
      pgsql_network_subeq a b = some true ∧ pgsql_network_subeq b a = some true ∧
      pgsql_network_sub a b = some false ∧ pgsql_network_sub b a = some false) ∧
    pgsql_network_subeq a a = some true := by
  constructor
  · intro heq
    obtain ⟨v, hv, hv0⟩ := cmp_zero_fields a b hwa hwb ha hb
    have hz : v = 0 := by
      simpa [pgsql_network_eq, hv] using heq
    obtain ⟨hf, hbits, hfull⟩ := hv0.1 hz
    have hW := ip_maxbits_congr a b hf
    have t1 := incl_test_of_fullVal_eq a b hwa hwb hf b.bits (by omega) hfull
    have t2 := incl_test_of_fullVal_eq b a hwb hwa hf.symm a.bits (by omega) hfull.symm
    refine ⟨?_, ?_, ?_, ?_⟩
    · unfold pgsql_network_subeq
      rw [if_pos hf, if_pos (by omega), t1]
    · unfold pgsql_network_subeq
      rw [if_pos hf.symm, if_pos (by omega), t2]
    · unfold pgsql_network_sub
      rw [if_pos hf, if_neg (by omega)]
    · unfold pgsql_network_sub
      rw [if_pos hf.symm, if_neg (by omega)]
  · unfold pgsql_network_subeq
    rw [if_pos rfl, if_pos (le_refl _), incl_test_of_fullVal_eq a a hwa hwa rfl a.bits ha rfl]

theorem eq_implies_subeq_witness :
    (pgsql_network_eq (ipv4 24 [192, 0, 2, 0]) (ipv4 24 [192, 0, 2, 0]) = some true →
      pgsql_network_subeq (ipv4 24 [192, 0, 2, 0]) (ipv4 24 [192, 0, 2, 0]) = some true ∧
      pgsql_network_subeq (ipv4 24 [192, 0, 2, 0]) (ipv4 24 [192, 0, 2, 0]) = some true ∧
      pgsql_network_sub (ipv4 24 [192, 0, 2, 0]) (ipv4 24 [192, 0, 2, 0]) = some false ∧
      pgsql_network_sub (ipv4 24 [192, 0, 2, 0]) (ipv4 24 [192, 0, 2, 0]) = some false) ∧
    pgsql_network_subeq (ipv4 24 [192, 0, 2, 0]) (ipv4 24 [192, 0, 2, 0]) = some true ∧
    pgsql_network_eq (ipv4 24 [192, 0, 2, 0]) (ipv4 24 [192, 0, 2, 0]) = some true :=
  ⟨(eq_implies_subeq (ipv4 24 [192, 0, 2, 0]) (ipv4 24 [192, 0, 2, 0]) (by decide) (by decide)
      (by decide) (by decide)).1,
    (eq_implies_subeq (ipv4 24 [192, 0, 2, 0]) (ipv4 24 [192, 0, 2, 0]) (by decide) (by decide)
      (by decide) (by decide)).2, by decide⟩

/-! ## Bytes beyond the family's width -/

theorem bitncmp_take (l r : List Nat) (L n : Nat) (hl : L ≤ l.length) (hr : L ≤ r.length)
    (hn : n ≤ 8 * L) (bl : ∀ x ∈ l, x < 256) (br : ∀ x ∈ r, x < 256) :
    bitncmp (l.take L) (r.take L) n = bitncmp l r n := by
  have h1 := bitncmp_val l r L n hl hr hn bl br
  have h2 := bitncmp_val (l.take L) (r.take L) L n
    (by simp [List.length_take, hl]) (by simp [List.length_take, hr]) hn
    (fun z hz => bl z (List.mem_of_mem_take hz)) (fun z hz => br z (List.mem_of_mem_take hz))
  have e : ∀ u : List Nat, topBits (u.take L) L n = topBits u L n := by
    intro u; unfold topBits; rw [List.take_take, Nat.min_self]
  rw [h2, h1, e, e]

/-- On the address buffers cut down to the family's width the comparison and the
inclusion tests return what they return on the full buffers. -/
theorem trunc_results (a b : inet) (hwa : a.wf) (hwb : b.wf)
    (ha : a.bits ≤ ip_maxbits a) (hb : b.bits ≤ ip_maxbits b) :
    pgsql_network_cmp (truncAddr a (ip_maxbits a / 8)) (truncAddr b (ip_maxbits b / 8)) =
      pgsql_network_cmp a b ∧
    pgsql_network_sub (truncAddr a (ip_maxbits a / 8)) (truncAddr b (ip_maxbits b / 8)) =
      pgsql_network_sub a b ∧
    pgsql_network_subeq (truncAddr a (ip_maxbits a / 8)) (truncAddr b (ip_maxbits b / 8)) =
      pgsql_network_subeq a b ∧
    pgsql_network_sup (truncAddr a (ip_maxbits a / 8)) (truncAddr b (ip_maxbits b / 8)) =
      pgsql_network_sup a b ∧
    pgsql_network_supeq (truncAddr a (ip_maxbits a / 8)) (truncAddr b (ip_maxbits b / 8)) =
      pgsql_network_supeq a b := by
  by_cases hf : a.family = b.family
  · have hW := ip_maxbits_congr a b hf
    rw [hW] at hb ⊢
    obtain ⟨-, -, la, ba⟩ := hwa
    obtain ⟨-, -, lb, bb⟩ := hwb
    have hc := ip_maxbits_cases a
    have hmin : Min a.bits b.bits ≤ ip_maxbits a := by
      unfold Min; split_ifs <;> omega
    have t : ∀ n, n ≤ ip_maxbits a →
        bitncmp (a.ipaddr.take (ip_maxbits a / 8)) (b.ipaddr.take (ip_maxbits a / 8)) n =
          bitncmp a.ipaddr b.ipaddr n := fun n hn =>
      bitncmp_take a.ipaddr b.ipaddr (ip_maxbits a / 8) n (by omega) (by omega) (by omega) ba bb
    have hm : ∀ k, ip_maxbits (truncAddr a k) = ip_maxbits a := fun k => rfl
    refine ⟨?_, ?_, ?_, ?_, ?_⟩
    · unfold pgsql_network_cmp
      rw [hm]
      simp only [truncAddr, t _ hmin, t _ (le_refl _)]
    · unfold pgsql_network_sub
      simp only [truncAddr, t _ hb]
    · unfold pgsql_network_subeq
      simp only [truncAddr, t _ hb]
    · unfold pgsql_network_sup
      simp only [truncAddr, t _ hb]
    · unfold pgsql_network_supeq
      simp only [truncAddr, t _ hb]
  · refine ⟨?_, ?_, ?_, ?_, ?_⟩
    · simp [pgsql_network_cmp, truncAddr, hf]
    · simp [pgsql_network_sub, truncAddr, hf]
    · simp [pgsql_network_subeq, truncAddr, hf]
    · simp [pgsql_network_sup, truncAddr, hf]
    · simp [pgsql_network_supeq, truncAddr, hf]

theorem truncAddr_congr (a a' : inet) (hf : a'.family = a.family) (hb : a'.bits = a.bits)
    (ht : a'.ipaddr.take (ip_maxbits a / 8) = a.ipaddr.take (ip_maxbits a / 8)) :
    truncAddr a' (ip_maxbits a' / 8) = truncAddr a (ip_maxbits a / 8) := by
  have hW : ip_maxbits a' = ip_maxbits a := ip_maxbits_congr a a' hf.symm
  unfold truncAddr
  rw [hW, hf, hb, ht]

/-- The inclusion predicates return on same-width values. -/
theorem incl_returns (a b : inet) (hwa : a.wf) (hwb : b.wf)
    (hb : b.bits ≤ ip_maxbits b) :
    (pgsql_network_sub a b).isSome = true ∧ (pgsql_network_subeq a b).isSome = true ∧
    (pgsql_network_sup a b).isSome = true ∧ (pgsql_network_supeq a b).isSome = true := by
  by_cases hf : a.family = b.family
  · have hb2 : b.bits ≤ ip_maxbits a := by rw [← ip_maxbits_congr a b hf]; exact hb
    have h := bitncmp_ip a b hwa hwb hf b.bits hb2
    refine ⟨?_, ?_, ?_, ?_⟩
    · unfold pgsql_network_sub; rw [if_pos hf, h]; split_ifs <;> rfl
    · unfold pgsql_network_subeq; rw [if_pos hf, h]; split_ifs <;> rfl
    · unfold pgsql_network_sup; rw [if_pos hf, h]; split_ifs <;> rfl
    · unfold pgsql_network_supeq; rw [if_pos hf, h]; split_ifs <;> rfl
  · refine ⟨?_, ?_, ?_, ?_⟩
    · simp [pgsql_network_sub, hf]
    · simp [pgsql_network_subeq, hf]
    · simp [pgsql_network_sup, hf]
    · simp [pgsql_network_supeq, hf]

/-- C15: bytes beyond the family's address width never influence a result. Let a, a'
and b, b' be values of the C type `inet` with mask lengths within the family's width
that agree on family, mask length and the first `ip_maxbits / 8` address bytes (4 for
IPv4, 16 otherwise). Then `pgsql_network_cmp`, the six relational predicates and the
four inclusion predicates return, and return the same on (a', b') as on (a, b).
Moreover the comparison and the inclusion predicates return the same when the
buffers are cut down to those first bytes, where a read at a larger index would have
no result: every byte read has an index below 4 for IPv4 and below 16 otherwise. -/
theorem bytes_beyond_width_ignored (a a' b b' : inet)
    (hwa : a.wf) (hwa' : a'.wf) (hwb : b.wf) (hwb' : b'.wf)
    (ha : a.bits ≤ ip_maxbits a) (hb : b.bits ≤ ip_maxbits b)
    (hfa : a'.family = a.family) (hba : a'.bits = a.bits)
    (hta : a'.ipaddr.take (ip_maxbits a / 8) = a.ipaddr.take (ip_maxbits a / 8))
    (hfb : b'.family = b.family) (hbb : b'.bits = b.bits)
    (htb : b'.ipaddr.take (ip_maxbits b / 8) = b.ipaddr.take (ip_maxbits b / 8)) :
    ((pgsql_network_cmp a b).isSome = true ∧ (pgsql_network_sub a b).isSome = true ∧
      (pgsql_network_subeq a b).isSome = true ∧ (pgsql_network_sup a b).isSome = true ∧
      (pgsql_network_supeq a b).isSome = true) ∧
    (pgsql_network_cmp a' b' = pgsql_network_cmp a b ∧
      pgsql_network_lt a' b' = pgsql_network_lt a b ∧
      pgsql_network_le a' b' = pgsql_network_le a b ∧
      pgsql_network_eq a' b' = pgsql_network_eq a b ∧
      pgsql_network_ge a' b' = pgsql_network_ge a b ∧
      pgsql_network_gt a' b' = pgsql_network_gt a b ∧
      pgsql_network_ne a' b' = pgsql_network_ne a b ∧
      pgsql_network_sub a' b' = pgsql_network_sub a b ∧
      pgsql_network_subeq a' b' = pgsql_network_subeq a b ∧
      pgsql_network_sup a' b' = pgsql_network_sup a b ∧
      pgsql_network_supeq a' b' = pgsql_network_supeq a b) ∧
    (pgsql_network_cmp (truncAddr a (ip_maxbits a / 8)) (truncAddr b (ip_maxbits b / 8)) =
        pgsql_network_cmp a b ∧
      pgsql_network_sub (truncAddr a (ip_maxbits a / 8)) (truncAddr b (ip_maxbits b / 8)) =
        pgsql_network_sub a b ∧
      pgsql_network_subeq (truncAddr a (ip_maxbits a / 8)) (truncAddr b (ip_maxbits b / 8)) =
        pgsql_network_subeq a b ∧
      pgsql_network_sup (truncAddr a (ip_maxbits a / 8)) (truncAddr b (ip_maxbits b / 8)) =
        pgsql_network_sup a b ∧
      pgsql_network_supeq (truncAddr a (ip_maxbits a / 8)) (truncAddr b (ip_maxbits b / 8)) =
        pgsql_network_supeq a b) := by
  have hWa : ip_maxbits a' = ip_maxbits a := ip_maxbits_congr a a' hfa.symm
  have hWb : ip_maxbits b' = ip_maxbits b := ip_maxbits_congr b b' hfb.symm
  have t := trunc_results a b hwa hwb ha hb
  have t' := trunc_results a' b' hwa' hwb' (by omega) (by omega)
  rw [truncAddr_congr a a' hfa hba hta, truncAddr_congr b b' hfb hbb htb] at t'
  obtain ⟨c1, c2, c3, c4, c5⟩ := t
  obtain ⟨d1, d2, d3, d4, d5⟩ := t'
  have e1 : pgsql_network_cmp a' b' = pgsql_network_cmp a b := d1.symm.trans c1
  have hi := incl_returns a b hwa hwb hb
  refine ⟨⟨?_, hi.1, hi.2.1, hi.2.2.1, hi.2.2.2⟩,
    ⟨e1, ?_, ?_, ?_, ?_, ?_, ?_, d2.symm.trans c2, d3.symm.trans c3, d4.symm.trans c4,
      d5.symm.trans c5⟩, ⟨c1, c2, c3, c4, c5⟩⟩
  · rw [cmp_val a b hwa hwb ha hb]; rfl
  · unfold pgsql_network_lt; rw [e1]
  · unfold pgsql_network_le; rw [e1]
  · unfold pgsql_network_eq; rw [e1]
  · unfold pgsql_network_ge; rw [e1]
  · unfold pgsql_network_gt; rw [e1]
  · unfold pgsql_network_ne; rw [e1]

theorem bytes_beyond_width_ignored_witness :
    pgsql_network_cmp
        { family := PGSQL_AF_INET, bits := 24,
          ipaddr := [192, 0, 2, 1, 7, 7, 7, 7, 7, 7, 7, 7, 7, 7, 7, 7] }
        { family := PGSQL_AF_INET, bits := 32,
          ipaddr := [192, 0, 2, 9, 255, 254, 253, 252, 1, 2, 3, 4, 5, 6, 7, 8] } =
      pgsql_network_cmp (ipv4 24 [192, 0, 2, 1]) (ipv4 32 [192, 0, 2, 9]) ∧
    pgsql_network_sup
        { family := PGSQL_AF_INET, bits := 24,
          ipaddr := [192, 0, 2, 1, 7, 7, 7, 7, 7, 7, 7, 7, 7, 7, 7, 7] }
        { family := PGSQL_AF_INET, bits := 32,
          ipaddr := [192, 0, 2, 9, 255, 254, 253, 252, 1, 2, 3, 4, 5, 6, 7, 8] } =
      pgsql_network_sup (ipv4 24 [192, 0, 2, 1]) (ipv4 32 [192, 0, 2, 9]) ∧
    pgsql_network_cmp (truncAddr (ipv4 24 [192, 0, 2, 1]) (ip_maxbits (ipv4 24 [192, 0, 2, 1]) / 8))
        (truncAddr (ipv4 32 [192, 0, 2, 9]) (ip_maxbits (ipv4 32 [192, 0, 2, 9]) / 8)) =
      pgsql_network_cmp (ipv4 24 [192, 0, 2, 1]) (ipv4 32 [192, 0, 2, 9]) :=
  ⟨(bytes_beyond_width_ignored (ipv4 24 [192, 0, 2, 1])
      { family := PGSQL_AF_INET, bits := 24,
        ipaddr := [192, 0, 2, 1, 7, 7, 7, 7, 7, 7, 7, 7, 7, 7, 7, 7] }
      (ipv4 32 [192, 0, 2, 9])
      { family := PGSQL_AF_INET, bits := 32,
        ipaddr := [192, 0, 2, 9, 255, 254, 253, 252, 1, 2, 3, 4, 5, 6, 7, 8] }
      (by decide) (by decide) (by decide) (by decide) (by decide) (by decide)
      (by decide) (by decide) (by decide) (by decide) (by decide) (by decide)).2.1.1,
   (bytes_beyond_width_ignored (ipv4 24 [192, 0, 2, 1])
      { family := PGSQL_AF_INET, bits := 24,
        ipaddr := [192, 0, 2, 1, 7, 7, 7, 7, 7, 7, 7, 7, 7, 7, 7, 7] }
      (ipv4 32 [192, 0, 2, 9])
      { family := PGSQL_AF_INET, bits := 32,
        ipaddr := [192, 0, 2, 9, 255, 254, 253, 252, 1, 2, 3, 4, 5, 6, 7, 8] }
      (by decide) (by decide) (by decide) (by decide) (by decide) (by decide)
      (by decide) (by decide) (by decide) (by decide) (by decide) (by decide)).2.1.2.2.2.2.2.2.2.2.2.1,
   (bytes_beyond_width_ignored (ipv4 24 [192, 0, 2, 1]) (ipv4 24 [192, 0, 2, 1])
      (ipv4 32 [192, 0, 2, 9]) (ipv4 32 [192, 0, 2, 9])
      (by decide) (by decide) (by decide) (by decide) (by decide) (by decide)
      rfl rfl rfl rfl rfl rfl).2.2.1⟩

/-! ## `bitncmp` as a comparison of bit strings -/

theorem topBits_succ (l : List Nat) (L n : Nat) (hl : L ≤ l.length) (hn : n + 1 ≤ 8 * L)
    (bl : ∀ x ∈ l, x < 256) :
    topBits l L (n + 1) = 2 * topBits l L n + (bitAt l n).toNat := by
  have h0 := testBit_topBits l L (n + 1) 0 hl hn bl (by omega)
  have e0 : n + 1 - 1 - 0 = n := by omega
  rw [e0, Nat.testBit_zero] at h0
  have hdiv : topBits l L n = topBits l L (n + 1) / 2 := by
    unfold topBits
    have e : 8 * L - n = (8 * L - (n + 1)) + 1 := by omega
    rw [e, pow_succ, Nat.div_div_eq_div_mul]
  rw [hdiv, ← h0]
  by_cases h1 : topBits l L (n + 1) % 2 = 1
  · simp only [h1, decide_True, Bool.toNat_true]; omega
  · simp only [h1, decide_False, Bool.toNat_false]; omega

theorem topBits_eq_bitsVal (l : List Nat) (L : Nat) (hl : L ≤ l.length)
    (bl : ∀ x ∈ l, x < 256) : ∀ n, n ≤ 8 * L → topBits l L n = bitsVal l n := by
  intro n
  induction n with
  | zero =>
    intro _
    have := topBits_lt l L 0 hl (by omega) bl
    simp only [pow_zero] at this
    simp only [bitsVal]; omega
  | succ n ih =>
    intro hn
    rw [topBits_succ l L n hl hn bl, ih (by omega)]
    rfl

theorem bitsVal_eq_of_sameBits (l r : List Nat) : ∀ k, sameBits l r k →
    bitsVal l k = bitsVal r k := by
  intro k
  induction k with
  | zero => intro _; rfl
  | succ k ih =>
    intro h
    have h1 := ih (fun i hi => h i (by omega))
    have h2 := h k (by omega)
    simp only [bitsVal, h1, h2]

theorem bitsVal_lt_mono (l r : List Nat) (m : Nat) (h : bitsVal l m < bitsVal r m) :
    ∀ n, m ≤ n → bitsVal l n < bitsVal r n := by
  intro n
  induction n with
  | zero => intro hm; have : m = 0 := by omega
            subst this; exact h
  | succ n ih =>
    intro hm
    by_cases hmn : m = n + 1
    · subst hmn; exact h
    · have := ih (by omega)
      have b1 : (bitAt l n).toNat ≤ 1 := Bool.toNat_le _
      have b2 : (bitAt r n).toNat ≤ 1 := Bool.toNat_le _
      simp only [bitsVal]; omega

theorem bitsVal_first_diff (l r : List Nat) (k n : Nat) (hk : k < n)
    (hs : sameBits l r k) (hl : bitAt l k = false) (hr : bitAt r k = true) :
    bitsVal l n < bitsVal r n := by
  apply bitsVal_lt_mono l r (k + 1) _ n (by omega)
  have := bitsVal_eq_of_sameBits l r k hs
  simp only [bitsVal, this, hl, hr, Bool.toNat_false, Bool.toNat_true]
  omega

/-- C16: `bitncmp` is the comparison of big-endian bit strings. For byte buffers
`l`, `r` holding at least `L` bytes and n <= 8 * L, `bitncmp l r n` returns a value
`v`; `v = 0` iff the first `n` bits coincide (bit 0 is the most significant bit of
byte 0); if `k < n` is the first position where they differ then `v > 0` iff bit `k`
of `l` is set and `v < 0` iff bit `k` of `r` is set; and `v` is the three-way
comparison of the two unsigned integers formed by the first `n` bits. -/
theorem bitncmp_bit_order (l r : List Nat) (L n : Nat) (hl : L ≤ l.length)
    (hr : L ≤ r.length) (hn : n ≤ 8 * L) (bl : ∀ x ∈ l, x < 256) (br : ∀ x ∈ r, x < 256) :
    ∃ v, bitncmp l r n = some v ∧
      (v = 0 ↔ sameBits l r n) ∧
      (∀ k, k < n → sameBits l r k → bitAt l k ≠ bitAt r k →
        ((0 < v ↔ bitAt l k = true) ∧ (v < 0 ↔ bitAt r k = true))) ∧
      v = sgn (bitsVal l n) (bitsVal r n) := by
  have hv := bitncmp_val l r L n hl hr hn bl br
  have e1 := topBits_eq_bitsVal l L hl bl n hn
  have e2 := topBits_eq_bitsVal r L hr br n hn
  refine ⟨_, hv, (sgn_eq_zero_iff _ _).trans (topBits_eq_iff l r L n hl hr hn bl br), ?_,
    by rw [e1, e2]⟩
  intro k hk hs hd
  rw [e1, e2, sgn_pos_iff, sgn_neg_iff]
  cases hlk : bitAt l k with
  | false =>
    have hrk : bitAt r k = true := by
      cases hrk : bitAt r k with
      | false => rw [hlk, hrk] at hd; exact absurd rfl hd
      | true => rfl
    have := bitsVal_first_diff l r k n hk hs hlk hrk
    rw [hrk]
    constructor
    · constructor
      · intro h; omega
      · intro h; exact absurd h (by decide)
    · exact ⟨fun _ => rfl, fun _ => this⟩
  | true =>
    have hrk : bitAt r k = false := by
      cases hrk : bitAt r k with
      | false => rfl
      | true => rw [hlk, hrk] at hd; exact absurd rfl hd
    have hs' : sameBits r l k := fun i hi => (hs i hi).symm
    have := bitsVal_first_diff r l k n hk hs' hrk hlk
    rw [hrk]
    constructor
    · exact ⟨fun _ => rfl, fun _ => this⟩
    · constructor
      · intro h; omega
      · intro h; exact absurd h (by decide)

theorem bitncmp_bit_order_witness :
    ∃ v, bitncmp [192, 0xF0] [192, 0xE0] 12 = some v ∧
      (v = 0 ↔ sameBits [192, 0xF0] [192, 0xE0] 12) ∧
      (∀ k, k < 12 → sameBits [192, 0xF0] [192, 0xE0] k →
        bitAt [192, 0xF0] k ≠ bitAt [192, 0xE0] k →
        ((0 < v ↔ bitAt [192, 0xF0] k = true) ∧ (v < 0 ↔ bitAt [192, 0xE0] k = true))) ∧
      v = sgn (bitsVal [192, 0xF0] 12) (bitsVal [192, 0xE0] 12) :=
  bitncmp_bit_order [192, 0xF0] [192, 0xE0] 2 12 (by decide) (by decide) (by decide)
    (by decide) (by decide)

/-! ## `addressOK` decides the host bits -/

theorem addressOK_returns_width (a : List Nat) (n : Nat) (family : Nat)
    (hlen : (if family = PGSQL_AF_INET then 4 else 16) ≤ a.length) :
    ∃ r, addressOK a (n : Int) family = some r := by
  unfold addressOK
  simp only
  by_cases hge : (n : Int) ≥ (if family = PGSQL_AF_INET then (32 : Int) else 128)
  · rw [if_pos hge]; exact ⟨true, rfl⟩
  · rw [if_neg hge]
    have e1 : Int.tdiv (n : Int) 8 = ((n / 8 : Nat) : Int) := (Int.ofNat_tdiv n 8).symm
    have e2 : Int.tmod (n : Int) 8 = ((n % 8 : Nat) : Int) := (Int.ofNat_tmod n 8).symm
    rw [e1, e2, if_neg (by omega)]
    apply addressOK_loop_returns
    rw [Int.toNat_ofNat]
    split_ifs at hge hlen ⊢ <;> omega

theorem hostBitsZero_take (a : List Nat) (n k : Nat) :
    hostBitsZero (a.take k) n (8 * k) ↔ hostBitsZero a n (8 * k) := by
  have e : ∀ i, i < 8 * k → bitAt (a.take k) i = bitAt a i := by
    intro i hi
    unfold bitAt
    rw [getD_take_of_lt a k (i / 8) (by omega)]
  constructor
  · intro h i h1 h2; rw [← e i h2]; exact h i h1 h2
  · intro h i h1 h2; rw [e i h2]; exact h i h1 h2

/-- C17: `addressOK` decides the host-bits-zero invariant exactly. For a buffer of at
least 4 (IPv4) or 16 (otherwise) bytes and a mask length n >= 0, `addressOK` returns,
and returns true iff every bit at a position p with n <= p < maxbits is 0; in
particular it returns true when n >= maxbits. It returns the same on the buffer cut
down to its first 4 or 16 bytes, where a read at a larger index would have no
result. -/
theorem addressOK_decides (a : List Nat) (n : Nat) (family : Nat)
    (hlen : (if family = PGSQL_AF_INET then 4 else 16) ≤ a.length) :
    ∃ r, addressOK a (n : Int) family = some r ∧
      (r = true ↔ hostBitsZero a n (if family = PGSQL_AF_INET then 32 else 128)) ∧
      ((if family = PGSQL_AF_INET then 32 else 128) ≤ n → r = true) ∧
      addressOK (a.take (if family = PGSQL_AF_INET then 4 else 16)) (n : Int) family = some r := by
  obtain ⟨r, hr⟩ := addressOK_returns_width a n family hlen
  have hs := addressOK_sound a n family r hr
  obtain ⟨r', hr'⟩ := addressOK_returns_width
    (a.take (if family = PGSQL_AF_INET then 4 else 16)) n family
    (by rw [List.length_take, Nat.min_eq_left hlen])
  have hs' := addressOK_sound _ n family r' hr'
  have hw : (if family = PGSQL_AF_INET then 32 else 128) =
      8 * (if family = PGSQL_AF_INET then 4 else 16) := by split_ifs <;> rfl
  have hrr : r' = r := by
    have : r' = true ↔ r = true := by
      rw [hs', hs, hw]
      exact hostBitsZero_take a n _
    cases r <;> cases r' <;> simp_all
  refine ⟨r, hr, hs, ?_, by rw [hr', hrr]⟩
  intro hge
  rw [hs]
  intro i h1 h2
  omega

theorem addressOK_decides_witness :
    ∃ r, addressOK [192, 0, 2, 1] ((24 : Nat) : Int) PGSQL_AF_INET = some r ∧
      (r = true ↔ hostBitsZero [192, 0, 2, 1] 24
        (if PGSQL_AF_INET = PGSQL_AF_INET then 32 else 128)) ∧
      ((if PGSQL_AF_INET = PGSQL_AF_INET then 32 else 128) ≤ 24 → r = true) ∧
      addressOK ([192, 0, 2, 1].take (if PGSQL_AF_INET = PGSQL_AF_INET then 4 else 16))
        ((24 : Nat) : Int) PGSQL_AF_INET = some r :=
  addressOK_decides [192, 0, 2, 1] 24 PGSQL_AF_INET (by decide)

/-! ## Inclusion as a relation -/

theorem subeq_true_iff (a b : inet) (hwa : a.wf) (hwb : b.wf) (hb : b.bits ≤ ip_maxbits b) :
    pgsql_network_subeq a b = some true ↔
      a.family = b.family ∧ a.bits ≥ b.bits ∧ sameBits a.ipaddr b.ipaddr b.bits := by
  by_cases hf : a.family = b.family
  · have hb2 : b.bits ≤ ip_maxbits a := by rw [← ip_maxbits_congr a b hf]; exact hb
    obtain ⟨r, hr, hr2⟩ := bitncmp_ip_zero a b hwa hwb hf b.bits hb2
    unfold pgsql_network_subeq
    rw [if_pos hf]
    by_cases h : a.bits ≥ b.bits
    · rw [if_pos h, hr, Option.some.injEq, hr2]
      exact ⟨fun x => ⟨hf, h, x⟩, fun x => x.2.2⟩
    · rw [if_neg h]
      constructor
      · intro x; simp at x
      · intro x; exact absurd x.2.1 h
  · unfold pgsql_network_subeq
    rw [if_neg hf]
    constructor
    · intro x; simp at x
    · intro x; exact absurd x.1 hf

theorem sub_true_iff (a b : inet) (hwa : a.wf) (hwb : b.wf) (hb : b.bits ≤ ip_maxbits b) :
    pgsql_network_sub a b = some true ↔
      a.family = b.family ∧ a.bits > b.bits ∧ sameBits a.ipaddr b.ipaddr b.bits := by
  by_cases hf : a.family = b.family
  · have hb2 : b.bits ≤ ip_maxbits a := by rw [← ip_maxbits_congr a b hf]; exact hb
    obtain ⟨r, hr, hr2⟩ := bitncmp_ip_zero a b hwa hwb hf b.bits hb2
    unfold pgsql_network_sub
    rw [if_pos hf]
    by_cases h : a.bits > b.bits
    · rw [if_pos h, hr, Option.some.injEq, hr2]
      exact ⟨fun x => ⟨hf, h, x⟩, fun x => x.2.2⟩
    · rw [if_neg h]
      constructor
      · intro x; simp at x
      · intro x; exact absurd x.2.1 h
  · unfold pgsql_network_sub
    rw [if_neg hf]
    constructor
    · intro x; simp at x
    · intro x; exact absurd x.1 hf

/-- C18: subnet-or-equal is transitive. For values of the C type `inet`, the mask
lengths of `b` and `c` being within the family's width, if `pgsql_network_subeq`
returns true on (a,b) and on (b,c) it returns true on (a,c); and if moreover
`pgsql_network_sub` returns true on (a,b) or on (b,c), it returns true on (a,c). -/
theorem subeq_trans (a b c : inet) (hwa : a.wf) (hwb : b.wf) (hwc : c.wf)
    (hb : b.bits ≤ ip_maxbits b) (hc : c.bits ≤ ip_maxbits c)
    (h1 : pgsql_network_subeq a b = some true) (h2 : pgsql_network_subeq b c = some true) :
    pgsql_network_subeq a c = some true ∧
    ((pgsql_network_sub a b = some true ∨ pgsql_network_sub b c = some true) →
      pgsql_network_sub a c = some true) := by
  obtain ⟨f1, p1, s1⟩ := (subeq_true_iff a b hwa hwb hb).1 h1
  obtain ⟨f2, p2, s2⟩ := (subeq_true_iff b c hwb hwc hc).1 h2
  have s3 : sameBits a.ipaddr c.ipaddr c.bits := fun i hi =>
    (s1 i (by omega)).trans (s2 i hi)
  constructor
  · exact (subeq_true_iff a c hwa hwc hc).2 ⟨f1.trans f2, by omega, s3⟩
  · rintro (h | h)
    · have := ((sub_true_iff a b hwa hwb hb).1 h).2.1
      exact (sub_true_iff a c hwa hwc hc).2 ⟨f1.trans f2, by omega, s3⟩
    · have := ((sub_true_iff b c hwb hwc hc).1 h).2.1
      exact (sub_true_iff a c hwa hwc hc).2 ⟨f1.trans f2, by omega, s3⟩

theorem subeq_trans_witness :
    pgsql_network_subeq (ipv4 24 [10, 1, 2, 0]) (ipv4 8 [10, 0, 0, 0]) = some true ∧
    ((pgsql_network_sub (ipv4 24 [10, 1, 2, 0]) (ipv4 16 [10, 1, 0, 0]) = some true ∨
        pgsql_network_sub (ipv4 16 [10, 1, 0, 0]) (ipv4 8 [10, 0, 0, 0]) = some true) →
      pgsql_network_sub (ipv4 24 [10, 1, 2, 0]) (ipv4 8 [10, 0, 0, 0]) = some true) :=
  subeq_trans (ipv4 24 [10, 1, 2, 0]) (ipv4 16 [10, 1, 0, 0]) (ipv4 8 [10, 0, 0, 0])
    (by decide) (by decide) (by decide) (by decide) (by decide) (by decide) (by decide)

theorem cmp_shorter_neg (a b : inet) (hwa : a.wf) (hwb : b.wf) (hf : a.family = b.family)
    (ha : a.bits ≤ ip_maxbits a) (hb : b.bits ≤ ip_maxbits b)
    (hlt : a.bits < b.bits) (hsame : sameBits a.ipaddr b.ipaddr a.bits) :
    ∃ v, pgsql_network_cmp a b = some v ∧ v < 0 := by
  refine ⟨_, cmp_val a b hwa hwb ha hb, ?_⟩
  have hm : Min a.bits b.bits = a.bits := by unfold Min; rw [if_pos hlt]
  have h0 := (sgn_eq_zero_iff _ _).2 ((fullVal_div_eq_iff a b hwa hwb hf a.bits ha).2 hsame)
  have hne : (a.bits : Int) - (b.bits : Int) ≠ 0 := by omega
  rw [if_pos hf]
  unfold cmpVal
  rw [hm, h0]
  simp only [ne_eq, not_true_eq_false, if_false, hne, not_false_eq_true, if_true]
  omega

/-- C19: a containing network sorts before everything it properly contains. For
values of the C type `inet` with mask lengths within the family's width, if
`pgsql_network_sub a b` returns true then `pgsql_network_cmp b a` returns a negative
value and `pgsql_network_cmp a b` a positive one, `pgsql_network_lt b a` returns true
and `pgsql_network_eq a b` returns false. -/
theorem sub_sorts_after (a b : inet) (hwa : a.wf) (hwb : b.wf)
    (ha : a.bits ≤ ip_maxbits a) (hb : b.bits ≤ ip_maxbits b)
    (h : pgsql_network_sub a b = some true) :
    ∃ x y, pgsql_network_cmp b a = some x ∧ x < 0 ∧
      pgsql_network_cmp a b = some y ∧ 0 < y ∧
      pgsql_network_lt b a = some true ∧ pgsql_network_eq a b = some false := by
  obtain ⟨hf, hp, hs⟩ := (sub_true_iff a b hwa hwb hb).1 h
  have hs' : sameBits b.ipaddr a.ipaddr b.bits := fun i hi => (hs i hi).symm
  obtain ⟨x, hx, hx0⟩ := cmp_shorter_neg b a hwb hwa hf.symm hb ha hp hs'
  obtain ⟨x', hx', x1, -⟩ := cmp_key b a hwb hwa hb ha
  obtain ⟨y, hy, -, y2⟩ := cmp_key a b hwa hwb ha hb
  have exx : x' = x := by rw [hx] at hx'; exact (Option.some.inj hx').symm
  have hy0 : 0 < y := y2.2 (x1.1 (by omega))
  refine ⟨x, y, hx, hx0, hy, hy0, ?_, ?_⟩
  · simp [pgsql_network_lt, hx, hx0]
  · simp [pgsql_network_eq, hy]; omega

theorem sub_sorts_after_witness :
    ∃ x y, pgsql_network_cmp (ipv4 16 [10, 1, 0, 0]) (ipv4 24 [10, 1, 2, 0]) = some x ∧ x < 0 ∧
      pgsql_network_cmp (ipv4 24 [10, 1, 2, 0]) (ipv4 16 [10, 1, 0, 0]) = some y ∧ 0 < y ∧
      pgsql_network_lt (ipv4 16 [10, 1, 0, 0]) (ipv4 24 [10, 1, 2, 0]) = some true ∧
      pgsql_network_eq (ipv4 24 [10, 1, 2, 0]) (ipv4 16 [10, 1, 0, 0]) = some false :=
  sub_sorts_after (ipv4 24 [10, 1, 2, 0]) (ipv4 16 [10, 1, 0, 0]) (by decide) (by decide)
    (by decide) (by decide) (by decide)

/-- C20: on well-formed network blocks mutual containment is equality. For
same-family values of the C type `inet` with mask lengths within the family's width
on which `addressOK` returns true, if `pgsql_network_subeq` returns true on (a,b) and
on (b,a) then `pgsql_network_cmp a b` returns 0. Without the host bits being zero
this fails: 192.0.2.1/24 and 192.0.2.2/24 contain each other, `addressOK` returns
false on them and they compare unequal. -/
theorem mutual_containment_eq (a b : inet) (hwa : a.wf) (hwb : b.wf)
    (hf : a.family = b.family)
    (ha : a.bits ≤ ip_maxbits a) (hb : b.bits ≤ ip_maxbits b)
    (oka : addressOK a.ipaddr (a.bits : Int) a.family = some true)
    (okb : addressOK b.ipaddr (b.bits : Int) b.family = some true)
    (h1 : pgsql_network_subeq a b = some true) (h2 : pgsql_network_subeq b a = some true) :
    pgsql_network_cmp a b = some 0 ∧
    (pgsql_network_subeq (ipv4 24 [192, 0, 2, 1]) (ipv4 24 [192, 0, 2, 2]) = some true ∧
      pgsql_network_subeq (ipv4 24 [192, 0, 2, 2]) (ipv4 24 [192, 0, 2, 1]) = some true ∧
      addressOK (ipv4 24 [192, 0, 2, 1]).ipaddr 24 PGSQL_AF_INET = some false ∧
      addressOK (ipv4 24 [192, 0, 2, 2]).ipaddr 24 PGSQL_AF_INET = some false ∧
      pgsql_network_cmp (ipv4 24 [192, 0, 2, 1]) (ipv4 24 [192, 0, 2, 2]) = some (-1)) := by
  refine ⟨?_, by decide⟩
  obtain ⟨-, p1, s1⟩ := (subeq_true_iff a b hwa hwb hb).1 h1
  obtain ⟨-, p2, -⟩ := (subeq_true_iff b a hwb hwa ha).1 h2
  have hp : a.bits = b.bits := by omega
  have hW := ip_maxbits_congr a b hf
  have za := (addressOK_sound a.ipaddr a.bits a.family true oka).1 rfl
  have zb := (addressOK_sound b.ipaddr b.bits b.family true okb).1 rfl
  have ea : (if a.family = PGSQL_AF_INET then 32 else 128) = ip_maxbits a := rfl
  have eb : (if b.family = PGSQL_AF_INET then 32 else 128) = ip_maxbits b := rfl
  rw [ea] at za
  rw [eb, hW] at zb
  have sall : sameBits a.ipaddr b.ipaddr (ip_maxbits a) := by
    intro i hi
    by_cases hib : i < b.bits
    · exact s1 i hib
    · rw [za i (by omega) hi, zb i (by omega) hi]
  have hfull : fullVal a = fullVal b := by
    have := (fullVal_div_eq_iff a b hwa hwb hf (ip_maxbits a) (le_refl _)).2 sall
    simpa using this
  obtain ⟨v, hv, hv0⟩ := cmp_zero_fields a b hwa hwb ha hb
  rw [hv, hv0.2 ⟨hf, hp, hfull⟩]

theorem mutual_containment_eq_witness :
    pgsql_network_cmp (ipv4 24 [192, 0, 2, 0]) (ipv4 24 [192, 0, 2, 0]) = some 0 ∧
    (pgsql_network_subeq (ipv4 24 [192, 0, 2, 1]) (ipv4 24 [192, 0, 2, 2]) = some true ∧
      pgsql_network_subeq (ipv4 24 [192, 0, 2, 2]) (ipv4 24 [192, 0, 2, 1]) = some true ∧
      addressOK (ipv4 24 [192, 0, 2, 1]).ipaddr 24 PGSQL_AF_INET = some false ∧
      addressOK (ipv4 24 [192, 0, 2, 2]).ipaddr 24 PGSQL_AF_INET = some false ∧
      pgsql_network_cmp (ipv4 24 [192, 0, 2, 1]) (ipv4 24 [192, 0, 2, 2]) = some (-1)) :=
  mutual_containment_eq (ipv4 24 [192, 0, 2, 0]) (ipv4 24 [192, 0, 2, 0]) (by decide)
    (by decide) (by decide) (by decide) (by decide) (by decide) (by decide) (by decide)
    (by decide)

end PgsqlInet
